import Mathlib

/-!
Verification development for the rust-opt-framework query-optimizer core.

The Rust sources are shallowly embedded: pure functions become Lean
functions, `&mut self` methods become explicit state passing, fallible
code returns `Except`, and panics (`unwrap` of `None`, out-of-bounds
`remove(0)`) are modelled by a dedicated error value.  Machine integers
(`u32`, `usize`) are modelled by `Nat`; none of the embedded code relies
on wrap-around.  `Vec` is modelled by `List` with its top (most recently
pushed) element at the head, so `push` is `cons` and `pop` takes the
head; comments note this at each use.
-/

/- ===== Expressions (the datafusion `Expr` subset the repository uses) ===== -/

/-- datafusion `Column`: an optional relation qualifier and a field name. -/
structure DFColumn where
  relation : Option String
  name : String
  deriving DecidableEq

/-- datafusion `ScalarValue`: only the boolean variant is used by the sources. -/
inductive DFScalarValue where
  | boolean (b : Option Bool)
  deriving DecidableEq

/-- datafusion binary `Operator`: the sources only construct and inspect
`Eq` and `And`. -/
inductive DFBinaryOperator where
  | eqOp
  | andOp
  deriving DecidableEq

/-- datafusion `Expr`: the variants the sources construct or match on. -/
inductive Expr where
  | column (c : DFColumn)
  | literal (v : DFScalarValue)
  | binaryExpr (left : Expr) (op : DFBinaryOperator) (right : Expr)
  deriving DecidableEq

/-- `Expr::eq` from datafusion: builds `left = right`. -/
def exprEq (l r : Expr) : Expr := .binaryExpr l .eqOp r

/-- The free function `and` from datafusion: builds `left AND right`. -/
def dfAnd (l r : Expr) : Expr := .binaryExpr l .andOp r

/-- The boolean literal `true` (`ScalarValue::Boolean(Some(true))`). -/
def trueLiteral : Expr := .literal (.boolean (some true))

/- ===== Properties and statistics ===== -/

/-- datafusion `DFSchema`, modelled by its list of field names (the
sources never look inside a schema, they only clone and compare it). -/
structure DFSchema where
  fields : List String
  deriving DecidableEq

/-- `LogicalProperty` from properties/logical.rs: a schema descriptor. -/
structure LogicalProperty where
  schema : DFSchema
  deriving DecidableEq

/-- Modelled from the spec: `stat.rs` is not among the sources; the spec
describes `stat` as an optional row-count statistic, modelled as a `Nat`. -/
abbrev Statistics := Nat

/-- Modelled from the spec: `properties/physical.rs` is not among the
sources; the spec describes a physical property set as a record of
independent properties with equality, modelled abstractly as a `Nat`. -/
abbrev PhysicalPropertySet := Nat

/- ===== Operators (operator/*.rs) ===== -/

/-- `JoinType` from datafusion. -/
inductive JoinType where
  | inner
  | leftJoin
  | rightJoin
  | full
  | semi
  | anti
  deriving DecidableEq

/-- `Limit` operator (operator/limit.rs). -/
structure Limit where
  limit : Nat
  deriving DecidableEq

/-- `Projection` operator (operator/projection.rs). -/
structure Projection where
  expr : List Expr
  deriving DecidableEq

/-- `Join` operator (operator/join.rs). -/
structure Join where
  join_type : JoinType
  expr : Expr
  deriving DecidableEq

/-- `TableScan` operator (operator/table_scan.rs). -/
structure TableScan where
  limit : Option Nat
  table_name : String
  deriving DecidableEq

/-- `LogicalOperator` (operator/logical.rs). -/
inductive LogicalOperator where
  | LogicalLimit (l : Limit)
  | LogicalProjection (p : Projection)
  | LogicalJoin (j : Join)
  | LogicalScan (s : TableScan)
  deriving DecidableEq

/-- `PhysicalOperator` (operator/mod.rs, variants named in plan.rs). -/
inductive PhysicalOperator where
  | PhysicalHashJoin (j : Join)
  | PhysicalTableScan (s : TableScan)
  deriving DecidableEq

/-- `Operator` (operator/mod.rs): logical or physical. -/
inductive Operator where
  | Logical (op : LogicalOperator)
  | Physical (op : PhysicalOperator)
  deriving DecidableEq

/- ===== PlanNode and Plan (plan.rs) =====

`PlanNode.inputs` is a `Vec<PlanNodeRef>`; the nested list is realised as
the mutual inductive `PlanNodeList` so that recursion over plans is
structural. -/

mutual
inductive PlanNode where
  | mk (id : Nat) (operator : Operator) (inputs : PlanNodeList)
      (logical_prop : Option LogicalProperty) (stat : Option Statistics)
      (physical_props : Option PhysicalPropertySet)
  deriving DecidableEq
inductive PlanNodeList where
  | nil
  | cons (head : PlanNode) (tail : PlanNodeList)
  deriving DecidableEq
end

def PlanNode.id : PlanNode → Nat
  | .mk i _ _ _ _ _ => i

def PlanNode.operator : PlanNode → Operator
  | .mk _ op _ _ _ _ => op

def PlanNode.inputs : PlanNode → PlanNodeList
  | .mk _ _ ins _ _ _ => ins

def PlanNode.logical_prop : PlanNode → Option LogicalProperty
  | .mk _ _ _ lp _ _ => lp

def PlanNode.stat : PlanNode → Option Statistics
  | .mk _ _ _ _ st _ => st

def PlanNode.physical_props : PlanNode → Option PhysicalPropertySet
  | .mk _ _ _ _ _ pp => pp

def PlanNodeList.toList : PlanNodeList → List PlanNode
  | .nil => []
  | .cons h t => h :: t.toList

def PlanNodeList.ofList : List PlanNode → PlanNodeList
  | [] => .nil
  | h :: t => .cons h (PlanNodeList.ofList t)

/-- `PlanNode::new`: logical property, statistics and physical properties
start out absent. -/
def PlanNode.new (id : Nat) (operator : Operator) (inputs : PlanNodeList) : PlanNode :=
  .mk id operator inputs none none none

/-- `Plan`: a handle holding one root node. -/
structure Plan where
  root : PlanNode
  deriving DecidableEq

/- ===== Boundary conversions (datafusion_poc/plan.rs) ===== -/

/-- datafusion `JoinConstraint`. -/
inductive JoinConstraint where
  | onConstraint
  | usingConstraint
  deriving DecidableEq

/-- The external (datafusion) logical plan, restricted to the variants the
converter matches on; every other datafusion variant is collapsed into
`Unsupported`, which the converter rejects.  The `dyn TableSource` of a
scan is modelled by the schema it exposes (the only observable the
sources use). -/
inductive DFLogicalPlan where
  | Projection (expr : List Expr) (input : DFLogicalPlan) (schema : DFSchema)
      (aliasName : Option String)
  | Limit (n : Nat) (input : DFLogicalPlan)
  | Join (left : DFLogicalPlan) (right : DFLogicalPlan)
      (onList : List (DFColumn × DFColumn)) (join_type : JoinType)
      (join_constraint : JoinConstraint) (schema : DFSchema)
      (null_equals_null : Bool)
  | TableScan (table_name : String) (sourceSchema : DFSchema)
      (projection : Option (List Nat)) (projected_schema : DFSchema)
      (filters : List Expr) (limit : Option Nat)
  | Unsupported (tag : String)
  deriving DecidableEq

/-- Conversion failures: `bail!` errors carry a message; `Panic` models a
Rust panic (`unwrap` of `None`, `remove(0)` on an empty `Vec`). -/
inductive ConvErr where
  | Unsupported (msg : String)
  | Panic
  deriving DecidableEq

instance [DecidableEq ε] [DecidableEq α] : DecidableEq (Except ε α) := fun
  | .error a, .error b =>
      if h : a = b then .isTrue (by rw [h]) else .isFalse (by simp [h])
  | .error _, .ok _ => .isFalse (by simp)
  | .ok _, .error _ => .isFalse (by simp)
  | .ok a, .ok b =>
      if h : a = b then .isTrue (by rw [h]) else .isFalse (by simp [h])

/-- `Iterator::reduce` with the folding function `and`. -/
def reduceAnd : List Expr → Option Expr
  | [] => none
  | x :: xs => some (xs.foldl dfAnd x)

/-- The join condition built by inbound conversion:
`on.iter().map(eq).reduce(and).unwrap_or(Boolean(Some(true)))`. -/
def joinCondOf (onList : List (DFColumn × DFColumn)) : Expr :=
  (reduceAnd (onList.map fun p => exprEq (.column p.1) (.column p.2))).getD trueLiteral

/-- `df_logical_plan_to_plan_node`: inbound conversion.  The missing
`PlanNodeIdGen` (referenced from datafusion_poc/plan.rs but not among the
sources) is modelled from the spec as a counter whose `next` returns the
current value and increments; ids are informational only. -/
def df_logical_plan_to_plan_node : DFLogicalPlan → Nat → Except ConvErr (PlanNode × Nat)
  | .Projection expr input _schema _alias, gen =>
      match df_logical_plan_to_plan_node input (gen + 1) with
      | .error e => .error e
      | .ok (child, gen') =>
          .ok (PlanNode.new gen (.Logical (.LogicalProjection ⟨expr⟩)) (.cons child .nil), gen')
  | .Limit n input, gen =>
      match df_logical_plan_to_plan_node input (gen + 1) with
      | .error e => .error e
      | .ok (child, gen') =>
          .ok (PlanNode.new gen (.Logical (.LogicalLimit ⟨n⟩)) (.cons child .nil), gen')
  | .Join l r onList jt _jc _schema _nen, gen =>
      match df_logical_plan_to_plan_node l (gen + 1) with
      | .error e => .error e
      | .ok (left, gen1) =>
          match df_logical_plan_to_plan_node r gen1 with
          | .error e => .error e
          | .ok (right, gen2) =>
              .ok (PlanNode.new gen (.Logical (.LogicalJoin ⟨jt, joinCondOf onList⟩))
                (.cons left (.cons right .nil)), gen2)
  | .TableScan table_name _src _proj _projSchema _filters _limit, gen =>
      -- `TableScan::new(&scan.table_name)`: the datafusion scan limit is
      -- not carried over (the operator is built without a limit).
      .ok (PlanNode.new gen (.Logical (.LogicalScan ⟨none, table_name⟩)) .nil, gen + 1)
  | .Unsupported tag, _gen =>
      .error (.Unsupported ("Unsupported datafusion logical plan: " ++ tag))

/-- `expr_to_df_join_condition`: only a single `column = column` equality
is accepted; everything else fails with a descriptive error. -/
def expr_to_df_join_condition : Expr → Except ConvErr (List (DFColumn × DFColumn))
  | .binaryExpr left .eqOp right =>
      match left, right with
      | .column lc, .column rc => .ok [(lc, rc)]
      | _, _ => .error (.Unsupported "Unsupported join condition to convert to datafusion join condition")
  | _ => .error (.Unsupported "Unsupported join condition to convert to datafusion join condition")

/-- `Option::unwrap`: panics on `None`. -/
def unwrapOr (o : Option α) : Except ConvErr α :=
  match o with
  | some a => .ok a
  | none => .error .Panic

mutual
/-- `plan_node_to_df_logical_plan`: outbound conversion.  Inputs are
converted first (`collect::<OptResult<Vec<_>>>`), then the operator is
rebuilt; the schema comes from `plan_node.logical_prop().unwrap()`. -/
def plan_node_to_df_logical_plan (plan_node : PlanNode) : Except ConvErr DFLogicalPlan :=
  match plan_node with
  | .mk _id op inputs lp _st _pp =>
      match planInputsToDf inputs with
      | .error e => .error e
      | .ok ins =>
          match op with
          | .Logical (.LogicalProjection projection) =>
              match unwrapOr ins.head?, unwrapOr lp with
              | .ok input0, .ok lprop =>
                  .ok (.Projection projection.expr input0 lprop.schema none)
              | .error e, _ => .error e
              | _, .error e => .error e
          | .Logical (.LogicalLimit limit) =>
              match unwrapOr ins.head? with
              | .ok input0 => .ok (.Limit limit.limit input0)
              | .error e => .error e
          | .Logical (.LogicalJoin join) =>
              match unwrapOr ins.head?, unwrapOr (ins.drop 1).head? with
              | .ok left, .ok right =>
                  match expr_to_df_join_condition join.expr, unwrapOr lp with
                  | .ok onList, .ok lprop =>
                      .ok (.Join left right onList join.join_type .onConstraint
                        lprop.schema true)
                  | .error e, _ => .error e
                  | _, .error e => .error e
              | .error e, _ => .error e
              | _, .error e => .error e
          | .Logical (.LogicalScan scan) =>
              match unwrapOr lp with
              | .ok lprop =>
                  .ok (.TableScan scan.table_name lprop.schema none lprop.schema [] scan.limit)
              | .error e => .error e
          | _ => .error (.Unsupported "Can not convert plan to data fusion logical plan")

def planInputsToDf (l : PlanNodeList) : Except ConvErr (List DFLogicalPlan) :=
  match l with
  | .nil => .ok []
  | .cons h t =>
      match plan_node_to_df_logical_plan h with
      | .error e => .error e
      | .ok h' =>
          match planInputsToDf t with
          | .error e => .error e
          | .ok t' => .ok (h' :: t')
end

/- A couple of sanity checks of the embedding on concrete plans. -/

example :
    df_logical_plan_to_plan_node (.Limit 7 (.TableScan "t" ⟨["a"]⟩ none ⟨["a"]⟩ [] none)) 0 =
      .ok (PlanNode.mk 0 (.Logical (.LogicalLimit ⟨7⟩))
        (.cons (PlanNode.mk 1 (.Logical (.LogicalScan ⟨none, "t"⟩)) .nil none none none) .nil)
        none none none, 2) := by decide

example :
    expr_to_df_join_condition (exprEq (.column ⟨none, "a"⟩) (.column ⟨none, "b"⟩)) =
      .ok [(⟨none, "a"⟩, ⟨none, "b"⟩)] := by decide

/- ===== Claims C2, C4, C5: boundary conversion properties ===== -/

/-- Written from the spec's words, to be compared with the source's
construction: the join predicate is the conjunction (folded with `and`) of
one column-equality expression per pair in the `on` list; an empty list
becomes the boolean literal `true`. -/
def specJoinPredicate (onList : List (DFColumn × DFColumn)) : Expr :=
  match onList with
  | [] => trueLiteral
  | p :: ps =>
      (ps.map fun q => exprEq (.column q.1) (.column q.2)).foldl dfAnd
        (exprEq (.column p.1) (.column p.2))

theorem joinCondOf_eq_spec (onList : List (DFColumn × DFColumn)) :
    joinCondOf onList = specJoinPredicate onList := by
  cases onList <;> simp [joinCondOf, reduceAnd, specJoinPredicate]

/-- C5: inbound conversion of an external Join node produces an internal
Join operator whose predicate is the conjunction (folded with `and`) of one
column-equality expression per pair of the `on` list, and the boolean
literal `true` when the `on` list is empty. -/
theorem C5_inbound_join_predicate
    (l r : DFLogicalPlan) (onList : List (DFColumn × DFColumn)) (jt : JoinType)
    (jc : JoinConstraint) (schema : DFSchema) (nen : Bool) (gen : Nat)
    (res : PlanNode × Nat)
    (h : df_logical_plan_to_plan_node (.Join l r onList jt jc schema nen) gen = .ok res) :
    res.1.operator = .Logical (.LogicalJoin ⟨jt, specJoinPredicate onList⟩) := by
  cases hl : df_logical_plan_to_plan_node l (gen + 1) with
  | error e => simp [df_logical_plan_to_plan_node, hl] at h
  | ok lr =>
    cases hr : df_logical_plan_to_plan_node r lr.2 with
    | error e => simp [df_logical_plan_to_plan_node, hl, hr] at h
    | ok rr =>
      simp [df_logical_plan_to_plan_node, hl, hr] at h
      subst h
      simp [PlanNode.new, PlanNode.operator, joinCondOf_eq_spec]

theorem C5_inbound_join_predicate_witness :
    (PlanNode.mk 0
        (.Logical (.LogicalJoin ⟨.inner, joinCondOf [(⟨none, "a"⟩, ⟨none, "b"⟩)]⟩))
        (.cons (PlanNode.mk 1 (.Logical (.LogicalScan ⟨none, "t1"⟩)) .nil none none none)
          (.cons (PlanNode.mk 2 (.Logical (.LogicalScan ⟨none, "t2"⟩)) .nil none none none)
            .nil))
        none none none).operator =
      .Logical (.LogicalJoin ⟨.inner, specJoinPredicate [(⟨none, "a"⟩, ⟨none, "b"⟩)]⟩) :=
  C5_inbound_join_predicate
    (.TableScan "t1" ⟨[]⟩ none ⟨[]⟩ [] none)
    (.TableScan "t2" ⟨[]⟩ none ⟨[]⟩ [] none)
    [(⟨none, "a"⟩, ⟨none, "b"⟩)] .inner .onConstraint ⟨[]⟩ true 0
    (PlanNode.mk 0
        (.Logical (.LogicalJoin ⟨.inner, joinCondOf [(⟨none, "a"⟩, ⟨none, "b"⟩)]⟩))
        (.cons (PlanNode.mk 1 (.Logical (.LogicalScan ⟨none, "t1"⟩)) .nil none none none)
          (.cons (PlanNode.mk 2 (.Logical (.LogicalScan ⟨none, "t2"⟩)) .nil none none none)
            .nil))
        none none none, 3)
    (by decide)

/-- `Except::is_ok`. -/
def exceptIsOk : Except ε α → Bool
  | .ok _ => true
  | .error _ => false

/-- The shape of join predicates the outbound converter accepts: a single
equality whose operands are both column references. -/
def isSingleColumnEquality : Expr → Bool
  | .binaryExpr (.column _) .eqOp (.column _) => true
  | _ => false

/-- C4, counterexample: a predicate that is a conjunction of two
column-equality expressions is rejected by the outbound join conversion,
although the claim states such conjunctions convert successfully. -/
theorem C4_counterexample :
    exceptIsOk (expr_to_df_join_condition
      (dfAnd (exprEq (.column ⟨none, "a"⟩) (.column ⟨none, "b"⟩))
             (exprEq (.column ⟨none, "c"⟩) (.column ⟨none, "d"⟩)))) = false := by
  decide

/-- C4, amended: outbound join conversion succeeds exactly when the
predicate is a single equality of two column references, in which case it
reconstructs the one-pair equi-join list; every other predicate shape
(conjunctions of two or more equalities included) fails with a
descriptive error. -/
theorem C4_amended :
    (∀ e : Expr, exceptIsOk (expr_to_df_join_condition e) = isSingleColumnEquality e) ∧
    (∀ lc rc : DFColumn,
      expr_to_df_join_condition (exprEq (.column lc) (.column rc)) = .ok [(lc, rc)]) := by
  constructor
  · intro e
    rcases e with c | v | ⟨l, op, r⟩
    · rfl
    · rfl
    · cases op <;> cases l <;> cases r <;> rfl
  · intro lc rc
    rfl

/-- C2: the claimed inbound-then-outbound round trip fails on the code.
For the external table scan of `t1` with row limit 10: inbound conversion
succeeds but drops the row limit and leaves the logical property unset,
and outbound conversion of the inbound result panics on the absent
logical property instead of reproducing the original plan. -/
theorem C2_roundtrip_fails :
    df_logical_plan_to_plan_node (.TableScan "t1" ⟨["a"]⟩ none ⟨["a"]⟩ [] (some 10)) 0 =
      .ok (PlanNode.mk 0 (.Logical (.LogicalScan ⟨none, "t1"⟩)) .nil none none none, 1) ∧
    plan_node_to_df_logical_plan
      (PlanNode.mk 0 (.Logical (.LogicalScan ⟨none, "t1"⟩)) .nil none none none) =
      .error .Panic := by
  exact ⟨by decide, by decide⟩

/- ===== LogicalPlanBuilder (plan.rs) and claim C10 ===== -/

/-- `LogicalPlanBuilder`: a fluent builder holding an optional current
root and a monotonically increasing id counter. -/
structure LogicalPlanBuilder where
  root : Option PlanNode
  next_plan_node_id : Nat
  deriving DecidableEq

/-- `LogicalPlanBuilder::new`: no root yet, ids start at 0. -/
def LogicalPlanBuilder.new : LogicalPlanBuilder :=
  { root := none, next_plan_node_id := 0 }

def LogicalPlanBuilder.reset_root (b : LogicalPlanBuilder) (new_root : PlanNode) :
    LogicalPlanBuilder :=
  { root := some new_root, next_plan_node_id := b.next_plan_node_id + 1 }

/-- `scan`: always succeeds and installs a fresh table-scan root. -/
def LogicalPlanBuilder.scan (b : LogicalPlanBuilder) (limit : Option Nat)
    (table_name : String) : LogicalPlanBuilder :=
  let table_scan : TableScan :=
    match limit with
    | some l => ⟨some l, table_name⟩
    | none => ⟨none, table_name⟩
  b.reset_root
    (PlanNode.new b.next_plan_node_id (.Logical (.LogicalScan table_scan)) .nil)

/-- `projection`: `self.root.clone().unwrap()` — panics (modelled as
`none`) when no root is present.  The source hands the single expression
to `Projection::new`; modelled as a one-element list. -/
def LogicalPlanBuilder.projection (b : LogicalPlanBuilder) (expr : Expr) :
    Option LogicalPlanBuilder :=
  match b.root with
  | none => none
  | some r =>
      some (b.reset_root (PlanNode.new b.next_plan_node_id
        (.Logical (.LogicalProjection ⟨[expr]⟩)) (.cons r .nil)))

/-- `limit`: panics when no root is present. -/
def LogicalPlanBuilder.limit (b : LogicalPlanBuilder) (limit : Nat) :
    Option LogicalPlanBuilder :=
  match b.root with
  | none => none
  | some r =>
      some (b.reset_root (PlanNode.new b.next_plan_node_id
        (.Logical (.LogicalLimit ⟨limit⟩)) (.cons r .nil)))

/-- `join`: the current root becomes the left input; panics when no root
is present. -/
def LogicalPlanBuilder.join (b : LogicalPlanBuilder) (join_type : JoinType)
    (condition : Expr) (right : PlanNode) : Option LogicalPlanBuilder :=
  match b.root with
  | none => none
  | some r =>
      some (b.reset_root (PlanNode.new b.next_plan_node_id
        (.Logical (.LogicalJoin ⟨join_type, condition⟩)) (.cons r (.cons right .nil))))

/-- `build`: consumes the current root (panics when absent), returning the
plan and the builder with the root cleared but the id counter kept. -/
def LogicalPlanBuilder.build (b : LogicalPlanBuilder) :
    Option (Plan × LogicalPlanBuilder) :=
  match b.root with
  | none => none
  | some r => some (⟨r⟩, { b with root := none })

/-- C10: projection, limit, join and build all panic (unwrap of None)
when the builder has no current root — on a freshly created builder, and
again immediately after build has consumed the root — while scan installs
a root and is therefore a valid precondition for them. -/
theorem C10_builder_requires_root :
    (∀ (b : LogicalPlanBuilder) (e : Expr) (n : Nat) (jt : JoinType) (c : Expr)
      (r : PlanNode), b.root = none →
        b.projection e = none ∧ b.limit n = none ∧ b.join jt c r = none ∧
        b.build = none) ∧
    LogicalPlanBuilder.new.root = none ∧
    (∀ (b b' : LogicalPlanBuilder) (p : Plan), b.build = some (p, b') → b'.root = none) ∧
    (∀ (b : LogicalPlanBuilder) (lim : Option Nat) (t : String),
      ((b.scan lim t).root).isSome = true) := by
  refine ⟨?_, rfl, ?_, ?_⟩
  · intro b e n jt c r h
    simp [LogicalPlanBuilder.projection, LogicalPlanBuilder.limit,
      LogicalPlanBuilder.join, LogicalPlanBuilder.build, h]
  · intro b b' p h
    cases hr : b.root with
    | none => simp [LogicalPlanBuilder.build, hr] at h
    | some r =>
      simp [LogicalPlanBuilder.build, hr] at h
      rw [← h.2]
  · intro b lim t
    rfl

theorem C10_builder_requires_root_witness :
    LogicalPlanBuilder.new.projection trueLiteral = none ∧
    LogicalPlanBuilder.new.limit 3 = none ∧
    LogicalPlanBuilder.new.join .inner trueLiteral
      (PlanNode.new 0 (.Logical (.LogicalScan ⟨none, "t"⟩)) .nil) = none ∧
    LogicalPlanBuilder.new.build = none :=
  C10_builder_requires_root.1 LogicalPlanBuilder.new trueLiteral 3 .inner trueLiteral
    (PlanNode.new 0 (.Logical (.LogicalScan ⟨none, "t"⟩)) .nil) (by rfl)

/- ===== BFS iterator over a plan (plan.rs, BFSPlanNodeIter) ===== -/

mutual
/-- Structural size of a plan node (termination measure only). -/
def PlanNode.size : PlanNode → Nat
  | .mk _ _ ins _ _ _ => 1 + PlanNodeList.size ins
def PlanNodeList.size : PlanNodeList → Nat
  | .nil => 1
  | .cons h t => 1 + PlanNode.size h + PlanNodeList.size t
end

/-- Total size of a worklist of plan nodes (termination measure). -/
def nodesSize (l : List PlanNode) : Nat := (l.map PlanNode.size).sum

/-- One `next()` step's child scan: `for input in &p.inputs` pushes each
not-yet-visited input onto `next_level` and marks it visited.  `Vec` is
modelled with its top at the head, so push is cons. -/
def enqueueInputs : List PlanNode → List Nat → List PlanNode → List Nat × List PlanNode
  | [], visited, next_level => (visited, next_level)
  | i :: is, visited, next_level =>
      if i.id ∈ visited then enqueueInputs is visited next_level
      else enqueueInputs is (i.id :: visited) (i :: next_level)

theorem enqueueInputs_size (is : List PlanNode) :
    ∀ visited next_level,
      nodesSize (enqueueInputs is visited next_level).2 ≤
        nodesSize next_level + nodesSize is := by
  induction is with
  | nil => intro v nl; simp [enqueueInputs, nodesSize]
  | cons i is ih =>
    intro v nl
    by_cases h : i.id ∈ v
    · have := ih v nl
      simp [enqueueInputs, h, nodesSize] at this ⊢
      omega
    · have := ih (i.id :: v) (i :: nl)
      simp [enqueueInputs, h, nodesSize] at this ⊢
      omega

theorem toList_nodesSize : ∀ l : PlanNodeList, nodesSize l.toList < PlanNodeList.size l
  | .nil => by simp [PlanNodeList.toList, nodesSize, PlanNodeList.size]
  | .cons h t => by
    have ih := toList_nodesSize t
    simp [PlanNodeList.toList, nodesSize, PlanNodeList.size] at ih ⊢
    omega

theorem inputs_nodesSize (p : PlanNode) : nodesSize p.inputs.toList + 1 ≤ PlanNode.size p := by
  cases p with
  | mk i op ins lp st pp =>
    have := toList_nodesSize ins
    simp [PlanNode.inputs, PlanNode.size]
    omega

/-- The BFS iterator of plan.rs, run to exhaustion.  State: the visited id
set, the current level and the next level (both `Vec`s modelled with the
top at the head, so `pop` takes the head).  When the current level is
exhausted the levels are swapped.  Returns the yielded nodes in order and
the final visited set. -/
def bfsAux : List Nat → List PlanNode → List PlanNode → List PlanNode × List Nat
  | visited, [], [] => ([], visited)
  | visited, [], q :: qs => bfsAux visited (q :: qs) []
  | visited, p :: rest, next_level =>
      let st := enqueueInputs p.inputs.toList visited next_level
      let r := bfsAux st.1 rest st.2
      (p :: r.1, r.2)
termination_by visited cur next =>
  2 * (nodesSize cur + nodesSize next) + (if cur.isEmpty then 1 else 0)
decreasing_by
  · simp [nodesSize]
  · have h1 := enqueueInputs_size p.inputs.toList visited next_level
    have h2 := inputs_nodesSize p
    simp [nodesSize] at h1 h2 ⊢
    split <;> omega

/-- `Plan::bfs_iterator`: the root id is pre-visited and the root is the
initial current level. -/
def Plan.bfs_iterator (p : Plan) : List PlanNode :=
  (bfsAux [p.root.id] [p.root] []).1

/- Sanity check: level-by-level order with levels consumed from the top of
the vector (reverse push order). -/
example :
    Plan.bfs_iterator
      ⟨PlanNode.mk 0 (.Logical (.LogicalLimit ⟨1⟩))
        (.cons (PlanNode.mk 1 (.Logical (.LogicalScan ⟨none, "a"⟩)) .nil none none none)
          (.cons (PlanNode.mk 2 (.Logical (.LogicalScan ⟨none, "b"⟩)) .nil none none none)
            .nil))
        none none none⟩ =
      [PlanNode.mk 0 (.Logical (.LogicalLimit ⟨1⟩))
        (.cons (PlanNode.mk 1 (.Logical (.LogicalScan ⟨none, "a"⟩)) .nil none none none)
          (.cons (PlanNode.mk 2 (.Logical (.LogicalScan ⟨none, "b"⟩)) .nil none none none)
            .nil))
        none none none,
       PlanNode.mk 2 (.Logical (.LogicalScan ⟨none, "b"⟩)) .nil none none none,
       PlanNode.mk 1 (.Logical (.LogicalScan ⟨none, "a"⟩)) .nil none none none] := by
  simp [Plan.bfs_iterator, bfsAux, enqueueInputs, PlanNode.id, PlanNode.inputs,
    PlanNodeList.toList]

/- ===== Reachability in a plan DAG (for the BFS contract, claim C7) ===== -/

mutual
/-- All nodes reachable from a node through `inputs` edges, with
repetition (the node itself first). -/
def PlanNode.reachNodes : PlanNode → List PlanNode
  | .mk i op ins lp st pp =>
      .mk i op ins lp st pp :: PlanNodeList.reachNodes ins
def PlanNodeList.reachNodes : PlanNodeList → List PlanNode
  | .nil => []
  | .cons h t => PlanNode.reachNodes h ++ PlanNodeList.reachNodes t
end

theorem reach_self : ∀ n : PlanNode, n ∈ n.reachNodes := by
  intro n
  cases n with
  | mk i op ins lp st pp =>
    simp [PlanNode.reachNodes]

theorem reachList_mem : ∀ (l : PlanNodeList) (x : PlanNode),
    x ∈ PlanNodeList.reachNodes l ↔ ∃ h ∈ l.toList, x ∈ h.reachNodes
  | .nil, x => by simp [PlanNodeList.reachNodes, PlanNodeList.toList]
  | .cons h t, x => by
    have ih := reachList_mem t x
    simp [PlanNodeList.reachNodes, PlanNodeList.toList, ih]

theorem reach_unfold (n : PlanNode) :
    n.reachNodes = n :: PlanNodeList.reachNodes n.inputs := by
  cases n with
  | mk i op ins lp st pp => simp [PlanNode.reachNodes, PlanNode.inputs]

theorem reach_input_sub (n i : PlanNode) (hi : i ∈ n.inputs.toList) :
    ∀ x ∈ i.reachNodes, x ∈ n.reachNodes := by
  intro x hx
  rw [reach_unfold]
  right
  exact (reachList_mem n.inputs x).2 ⟨i, hi, hx⟩

mutual
theorem reach_trans : ∀ (n a : PlanNode), a ∈ n.reachNodes →
    ∀ x ∈ a.reachNodes, x ∈ n.reachNodes
  | .mk i op ins lp st pp, a, ha, x, hx => by
    rw [reach_unfold] at ha
    rcases List.mem_cons.1 ha with h | h
    · subst h
      exact hx
    · exact (reach_unfold _ ▸ List.mem_cons.2 (Or.inr (reachList_trans ins a h x hx)) :
        x ∈ (PlanNode.mk i op ins lp st pp).reachNodes)
theorem reachList_trans : ∀ (l : PlanNodeList) (a : PlanNode),
    a ∈ PlanNodeList.reachNodes l → ∀ x ∈ a.reachNodes, x ∈ PlanNodeList.reachNodes l
  | .cons h t, a, ha, x, hx => by
    simp only [PlanNodeList.reachNodes, List.mem_append] at ha ⊢
    rcases ha with h1 | h1
    · exact Or.inl (reach_trans h a h1 x hx)
    · exact Or.inr (reachList_trans t a h1 x hx)
end

/- Properties of the child-scan step. -/

theorem enqueueInputs_nl_mem : ∀ (is : List PlanNode) (v : List Nat) (nl : List PlanNode)
    (x : PlanNode), x ∈ nl → x ∈ (enqueueInputs is v nl).2 := by
  intro is
  induction is with
  | nil => intro v nl x hx; simpa [enqueueInputs] using hx
  | cons i is ih =>
    intro v nl x hx
    by_cases h : i.id ∈ v
    · simpa [enqueueInputs, h] using ih v nl x hx
    · simpa [enqueueInputs, h] using ih (i.id :: v) (i :: nl) x (List.mem_cons_of_mem _ hx)

theorem enqueueInputs_mem_src : ∀ (is : List PlanNode) (v : List Nat) (nl : List PlanNode)
    (x : PlanNode), x ∈ (enqueueInputs is v nl).2 → x ∈ nl ∨ x ∈ is := by
  intro is
  induction is with
  | nil => intro v nl x hx; simp [enqueueInputs] at hx; exact Or.inl hx
  | cons i is ih =>
    intro v nl x hx
    by_cases h : i.id ∈ v
    · simp only [enqueueInputs, h, if_true] at hx
      rcases ih v nl x hx with h1 | h1
      · exact Or.inl h1
      · exact Or.inr (List.mem_cons_of_mem _ h1)
    · simp only [enqueueInputs, h, if_false] at hx
      rcases ih (i.id :: v) (i :: nl) x hx with h1 | h1
      · rcases List.mem_cons.1 h1 with h2 | h2
        · exact Or.inr (h2 ▸ List.mem_cons_self _ _)
        · exact Or.inl h2
      · exact Or.inr (List.mem_cons_of_mem _ h1)

theorem enqueueInputs_mem_new : ∀ (is : List PlanNode) (v : List Nat) (nl : List PlanNode)
    (x : PlanNode), x ∈ (enqueueInputs is v nl).2 → x ∈ nl ∨ x.id ∉ v := by
  intro is
  induction is with
  | nil => intro v nl x hx; simp [enqueueInputs] at hx; exact Or.inl hx
  | cons i is ih =>
    intro v nl x hx
    by_cases h : i.id ∈ v
    · simp only [enqueueInputs, h, if_true] at hx
      exact ih v nl x hx
    · simp only [enqueueInputs, h, if_false] at hx
      rcases ih (i.id :: v) (i :: nl) x hx with h1 | h1
      · rcases List.mem_cons.1 h1 with h2 | h2
        · exact Or.inr (h2 ▸ h)
        · exact Or.inl h2
      · exact Or.inr fun hc => h1 (List.mem_cons_of_mem _ hc)

theorem enqueueInputs_vis_mono : ∀ (is : List PlanNode) (v : List Nat) (nl : List PlanNode)
    (y : Nat), y ∈ v → y ∈ (enqueueInputs is v nl).1 := by
  intro is
  induction is with
  | nil => intro v nl y hy; simpa [enqueueInputs] using hy
  | cons i is ih =>
    intro v nl y hy
    by_cases h : i.id ∈ v
    · simpa [enqueueInputs, h] using ih v nl y hy
    · simpa [enqueueInputs, h] using ih (i.id :: v) (i :: nl) y (List.mem_cons_of_mem _ hy)

theorem enqueueInputs_vis_char : ∀ (is : List PlanNode) (v : List Nat) (nl : List PlanNode)
    (y : Nat), y ∈ (enqueueInputs is v nl).1 →
      y ∈ v ∨ y ∈ (enqueueInputs is v nl).2.map PlanNode.id := by
  intro is
  induction is with
  | nil => intro v nl y hy; simp [enqueueInputs] at hy ⊢; exact Or.inl hy
  | cons i is ih =>
    intro v nl y hy
    by_cases h : i.id ∈ v
    · simp only [enqueueInputs, h, if_true] at hy ⊢
      exact ih v nl y hy
    · simp only [enqueueInputs, h, if_false] at hy ⊢
      rcases ih (i.id :: v) (i :: nl) y hy with h1 | h1
      · rcases List.mem_cons.1 h1 with h2 | h2
        · subst h2
          exact Or.inr (List.mem_map.2 ⟨i,
            enqueueInputs_nl_mem is (i.id :: v) (i :: nl) i (List.mem_cons_self _ _), rfl⟩)
        · exact Or.inl h2
      · exact Or.inr h1

theorem enqueueInputs_inputs_vis : ∀ (is : List PlanNode) (v : List Nat)
    (nl : List PlanNode) (i : PlanNode), i ∈ is → i.id ∈ (enqueueInputs is v nl).1 := by
  intro is
  induction is with
  | nil => intro v nl i hi; simp at hi
  | cons j is ih =>
    intro v nl i hi
    rcases List.mem_cons.1 hi with h1 | h1
    · subst h1
      by_cases h : i.id ∈ v
      · simpa [enqueueInputs, h] using enqueueInputs_vis_mono is v nl i.id h
      · simpa [enqueueInputs, h] using
          enqueueInputs_vis_mono is (i.id :: v) (i :: nl) i.id (List.mem_cons_self _ _)
    · by_cases h : j.id ∈ v
      · simpa [enqueueInputs, h] using ih v nl i h1
      · simpa [enqueueInputs, h] using ih (j.id :: v) (j :: nl) i h1

theorem enqueueInputs_queue_vis : ∀ (is : List PlanNode) (v : List Nat)
    (nl : List PlanNode), (∀ x ∈ nl, x.id ∈ v) →
      ∀ x ∈ (enqueueInputs is v nl).2, x.id ∈ (enqueueInputs is v nl).1 := by
  intro is
  induction is with
  | nil => intro v nl hnl x hx; simp [enqueueInputs] at hx ⊢; exact hnl x hx
  | cons i is ih =>
    intro v nl hnl x hx
    by_cases h : i.id ∈ v
    · simp only [enqueueInputs, h, if_true] at hx ⊢
      exact ih v nl hnl x hx
    · simp only [enqueueInputs, h, if_false] at hx ⊢
      refine ih (i.id :: v) (i :: nl) ?_ x hx
      intro y hy
      rcases List.mem_cons.1 hy with h1 | h1
      · exact h1 ▸ List.mem_cons_self _ _
      · exact List.mem_cons_of_mem _ (hnl y h1)

theorem enqueueInputs_nodup : ∀ (is : List PlanNode) (v : List Nat)
    (nl : List PlanNode), (nl.map PlanNode.id).Nodup → (∀ x ∈ nl, x.id ∈ v) →
      ((enqueueInputs is v nl).2.map PlanNode.id).Nodup := by
  intro is
  induction is with
  | nil => intro v nl h1 h2; simpa [enqueueInputs] using h1
  | cons i is ih =>
    intro v nl h1 h2
    by_cases h : i.id ∈ v
    · simp only [enqueueInputs, h, if_true]
      exact ih v nl h1 h2
    · simp only [enqueueInputs, h, if_false]
      refine ih (i.id :: v) (i :: nl) ?_ ?_
      · simp only [List.map_cons, List.nodup_cons]
        refine ⟨fun hc => ?_, h1⟩
        rcases List.mem_map.1 hc with ⟨y, hy, hid⟩
        exact h (hid ▸ h2 y hy)
      · intro y hy
        rcases List.mem_cons.1 hy with hh | hh
        · exact hh ▸ List.mem_cons_self _ _
        · exact List.mem_cons_of_mem _ (h2 y hh)

/- Properties of the BFS loop.  One-step unfolding equations first. -/

theorem bfsAux_nil_nil (v : List Nat) : bfsAux v [] [] = ([], v) := by
  simp [bfsAux]

theorem bfsAux_swap (v : List Nat) (q : PlanNode) (qs : List PlanNode) :
    bfsAux v [] (q :: qs) = bfsAux v (q :: qs) [] := by
  simp [bfsAux]

theorem bfsAux_cons (v : List Nat) (p : PlanNode) (rest nl : List PlanNode) :
    bfsAux v (p :: rest) nl =
      (p :: (bfsAux (enqueueInputs p.inputs.toList v nl).1 rest
              (enqueueInputs p.inputs.toList v nl).2).1,
       (bfsAux (enqueueInputs p.inputs.toList v nl).1 rest
              (enqueueInputs p.inputs.toList v nl).2).2) := by
  simp [bfsAux]

theorem bfsAux_queue_sub : ∀ (v : List Nat) (c n : List PlanNode) (x : PlanNode),
    x ∈ c ∨ x ∈ n → x ∈ (bfsAux v c n).1 := by
  intro v c n
  induction v, c, n using bfsAux.induct with
  | case1 v => intro x hx; rcases hx with h | h <;> simp at h
  | case2 v q qs ih =>
    intro x hx
    rw [bfsAux_swap]
    exact ih x (Or.inl (hx.elim (fun h => by simp at h) id))
  | case3 v p rest nl st ih =>
    intro x hx
    rw [bfsAux_cons, List.mem_cons]
    rcases hx with h | h
    · rcases List.mem_cons.1 h with h1 | h1
      · exact Or.inl h1
      · exact Or.inr (ih x (Or.inl h1))
    · exact Or.inr (ih x (Or.inr (enqueueInputs_nl_mem _ _ _ _ h)))

theorem bfsAux_vis_mono : ∀ (v : List Nat) (c n : List PlanNode) (y : Nat),
    y ∈ v → y ∈ (bfsAux v c n).2 := by
  intro v c n
  induction v, c, n using bfsAux.induct with
  | case1 v => intro y hy; simpa [bfsAux_nil_nil] using hy
  | case2 v q qs ih => intro y hy; rw [bfsAux_swap]; exact ih y hy
  | case3 v p rest nl st ih =>
    intro y hy
    rw [bfsAux_cons]
    exact ih y (enqueueInputs_vis_mono _ _ _ _ hy)

theorem bfsAux_vis_char : ∀ (v : List Nat) (c n : List PlanNode) (y : Nat),
    y ∈ (bfsAux v c n).2 → y ∈ v ∨ y ∈ (bfsAux v c n).1.map PlanNode.id := by
  intro v c n
  induction v, c, n using bfsAux.induct with
  | case1 v => intro y hy; simp [bfsAux_nil_nil] at hy ⊢; exact hy
  | case2 v q qs ih => intro y hy; rw [bfsAux_swap] at hy ⊢; exact ih y hy
  | case3 v p rest nl st ih =>
    intro y hy
    rw [bfsAux_cons] at hy ⊢
    rcases ih y hy with h | h
    · rcases enqueueInputs_vis_char _ _ _ _ h with h1 | h1
      · exact Or.inl h1
      · rcases List.mem_map.1 h1 with ⟨x, hx, hid⟩
        refine Or.inr ?_
        simp only [List.map_cons, List.mem_cons]
        exact Or.inr (List.mem_map.2 ⟨x, bfsAux_queue_sub _ _ _ x (Or.inr hx), hid⟩)
    · refine Or.inr ?_
      simp only [List.map_cons, List.mem_cons]
      exact Or.inr h

theorem bfsAux_yield_src : ∀ (v : List Nat) (c n : List PlanNode) (x : PlanNode),
    x ∈ (bfsAux v c n).1 → x.id ∈ (c ++ n).map PlanNode.id ∨ x.id ∉ v := by
  intro v c n
  induction v, c, n using bfsAux.induct with
  | case1 v => intro x hx; simp [bfsAux_nil_nil] at hx
  | case2 v q qs ih =>
    intro x hx
    rw [bfsAux_swap] at hx
    rcases ih x hx with h | h
    · exact Or.inl (by simpa using h)
    · exact Or.inr h
  | case3 v p rest nl st ih =>
    intro x hx
    rw [bfsAux_cons] at hx
    rcases List.mem_cons.1 hx with h | h
    · subst h
      exact Or.inl (by simp)
    · rcases ih x h with h1 | h1
      · simp only [List.map_append, List.mem_append, List.mem_map] at h1 ⊢
        rcases h1 with ⟨y, hy, hid⟩ | ⟨y, hy, hid⟩
        · exact Or.inl (Or.inl ⟨y, List.mem_cons_of_mem _ hy, hid⟩)
        · rcases enqueueInputs_mem_new _ _ _ _ hy with h2 | h2
          · exact Or.inl (Or.inr ⟨y, h2, hid⟩)
          · exact Or.inr (hid ▸ h2)
      · exact Or.inr fun hc => h1 (enqueueInputs_vis_mono _ _ _ _ hc)

theorem bfsAux_yield_vis : ∀ (v : List Nat) (c n : List PlanNode),
    (∀ x, x ∈ c ∨ x ∈ n → x.id ∈ v) →
      ∀ x ∈ (bfsAux v c n).1, x.id ∈ (bfsAux v c n).2 := by
  intro v c n
  induction v, c, n using bfsAux.induct with
  | case1 v => intro h x hx; simp [bfsAux_nil_nil] at hx
  | case2 v q qs ih =>
    intro h x hx
    rw [bfsAux_swap] at hx ⊢
    refine ih ?_ x hx
    intro y hy
    exact h y (hy.elim Or.inr (fun hh => by simp at hh))
  | case3 v p rest nl st ih =>
    intro h x hx
    rw [bfsAux_cons] at hx ⊢
    have hinv : ∀ y, y ∈ rest ∨ y ∈ (enqueueInputs p.inputs.toList v nl).2 →
        y.id ∈ (enqueueInputs p.inputs.toList v nl).1 := by
      intro y hy
      rcases hy with h1 | h1
      · exact enqueueInputs_vis_mono _ _ _ _ (h y (Or.inl (List.mem_cons_of_mem _ h1)))
      · exact enqueueInputs_queue_vis _ _ _ (fun z hz => h z (Or.inr hz)) y h1
    rcases List.mem_cons.1 hx with h1 | h1
    · subst h1
      exact bfsAux_vis_mono _ _ _ _
        (enqueueInputs_vis_mono _ _ _ _ (h x (Or.inl (List.mem_cons_self _ _))))
    · exact ih hinv x h1

theorem bfsAux_nodup : ∀ (v : List Nat) (c n : List PlanNode),
    ((c ++ n).map PlanNode.id).Nodup → (∀ x, x ∈ c ∨ x ∈ n → x.id ∈ v) →
      ((bfsAux v c n).1.map PlanNode.id).Nodup := by
  intro v c n
  induction v, c, n using bfsAux.induct with
  | case1 v => intro h1 h2; simp [bfsAux_nil_nil]
  | case2 v q qs ih =>
    intro h1 h2
    rw [bfsAux_swap]
    refine ih (by simpa using h1) ?_
    intro y hy
    exact h2 y (hy.elim Or.inr (fun hh => by simp at hh))
  | case3 v p rest nl st ih =>
    intro h1 h2
    rw [bfsAux_cons]
    simp only [List.map_cons, List.nodup_cons]
    have hq : ∀ y, y ∈ rest ∨ y ∈ (enqueueInputs p.inputs.toList v nl).2 →
        y.id ∈ (enqueueInputs p.inputs.toList v nl).1 := by
      intro y hy
      rcases hy with hh | hh
      · exact enqueueInputs_vis_mono _ _ _ _ (h2 y (Or.inl (List.mem_cons_of_mem _ hh)))
      · exact enqueueInputs_queue_vis _ _ _ (fun z hz => h2 z (Or.inr hz)) y hh
    have h1' : ((p :: rest).map PlanNode.id).Nodup ∧ (nl.map PlanNode.id).Nodup ∧
        ∀ a, a ∈ (p :: rest).map PlanNode.id → a ∉ nl.map PlanNode.id := by
      rw [List.map_append, List.nodup_append] at h1
      exact ⟨h1.1, h1.2.1, fun a ha hb => h1.2.2 ha hb⟩
    obtain ⟨hpr, hnl, hdisj⟩ := h1'
    have hpid : p.id ∉ rest.map PlanNode.id := (List.nodup_cons.1 (by simpa using hpr)).1
    have hpr' : (rest.map PlanNode.id).Nodup := (List.nodup_cons.1 (by simpa using hpr)).2
    have hrec : ((rest ++ (enqueueInputs p.inputs.toList v nl).2).map PlanNode.id).Nodup := by
      rw [List.map_append, List.nodup_append]
      refine ⟨hpr', enqueueInputs_nodup _ _ _ hnl (fun x hx => h2 x (Or.inr hx)), ?_⟩
      intro a ha hb
      rcases List.mem_map.1 hb with ⟨y, hy, hid⟩
      rcases List.mem_map.1 ha with ⟨z, hz, hidz⟩
      rcases enqueueInputs_mem_new _ _ _ _ hy with h3 | h3
      · exact hdisj a (List.mem_map.2 ⟨z, List.mem_cons_of_mem _ hz, hidz⟩)
          (List.mem_map.2 ⟨y, h3, hid⟩)
      · exact h3 (hid ▸ (hidz ▸ h2 z (Or.inl (List.mem_cons_of_mem _ hz)) : a ∈ v))
    refine ⟨fun hc => ?_, ih hrec hq⟩
    rcases List.mem_map.1 hc with ⟨x, hx, hid⟩
    rcases bfsAux_yield_src _ _ _ x hx with h3 | h3
    · rw [List.map_append, List.mem_append] at h3
      rcases h3 with h4 | h4
      · rcases List.mem_map.1 h4 with ⟨z, hz, hidz⟩
        exact hpid (by rw [← hid, ← hidz]; exact List.mem_map.2 ⟨z, hz, rfl⟩)
      · rcases List.mem_map.1 h4 with ⟨z, hz, hidz⟩
        rcases enqueueInputs_mem_new _ _ _ _ hz with h5 | h5
        · refine hdisj p.id (by simp) ?_
          rw [← hid, ← hidz]
          exact List.mem_map.2 ⟨z, h5, rfl⟩
        · exact h5 (hidz ▸ (hid ▸ h2 p (Or.inl (List.mem_cons_self _ _))))
    · exact h3 (hid ▸ enqueueInputs_vis_mono _ _ _ _
        (h2 p (Or.inl (List.mem_cons_self _ _))))

theorem bfsAux_closed : ∀ (v : List Nat) (c n : List PlanNode),
    ∀ x ∈ (bfsAux v c n).1, ∀ i ∈ x.inputs.toList, i.id ∈ (bfsAux v c n).2 := by
  intro v c n
  induction v, c, n using bfsAux.induct with
  | case1 v => intro x hx; simp [bfsAux_nil_nil] at hx
  | case2 v q qs ih => intro x hx; rw [bfsAux_swap] at hx ⊢; exact ih x hx
  | case3 v p rest nl st ih =>
    intro x hx i hi
    rw [bfsAux_cons] at hx ⊢
    rcases List.mem_cons.1 hx with h | h
    · subst h
      exact bfsAux_vis_mono _ _ _ _ (enqueueInputs_inputs_vis _ _ _ _ hi)
    · exact ih x h i hi

theorem bfsAux_sound : ∀ (v : List Nat) (c n : List PlanNode),
    ∀ x ∈ (bfsAux v c n).1, ∃ q, (q ∈ c ∨ q ∈ n) ∧ x ∈ q.reachNodes := by
  intro v c n
  induction v, c, n using bfsAux.induct with
  | case1 v => intro x hx; simp [bfsAux_nil_nil] at hx
  | case2 v q qs ih =>
    intro x hx
    rw [bfsAux_swap] at hx
    rcases ih x hx with ⟨q', hq', hr⟩
    exact ⟨q', Or.inr (hq'.elim id (fun hh => by simp at hh)), hr⟩
  | case3 v p rest nl st ih =>
    intro x hx
    rw [bfsAux_cons] at hx
    rcases List.mem_cons.1 hx with h | h
    · exact ⟨p, Or.inl (List.mem_cons_self _ _), h ▸ reach_self p⟩
    · rcases ih x h with ⟨q', hq', hr⟩
      rcases hq' with h1 | h1
      · exact ⟨q', Or.inl (List.mem_cons_of_mem _ h1), hr⟩
      · rcases enqueueInputs_mem_src _ _ _ _ h1 with h2 | h2
        · exact ⟨q', Or.inr h2, hr⟩
        · exact ⟨p, Or.inl (List.mem_cons_self _ _), reach_input_sub p q' h2 x hr⟩

/- Completeness of the BFS traversal under id-injectivity. -/

theorem bfs_root_out (root : PlanNode) :
    root ∈ (bfsAux [root.id] [root] []).1 :=
  bfsAux_queue_sub _ _ _ root (Or.inl (List.mem_cons_self _ _))

theorem bfs_out_vf (root : PlanNode) :
    ∀ x ∈ (bfsAux [root.id] [root] []).1, x.id ∈ (bfsAux [root.id] [root] []).2 := by
  refine bfsAux_yield_vis _ _ _ ?_
  intro x hx
  rcases hx with h | h
  · simp only [List.mem_singleton] at h
    subst h
    simp
  · simp at h

theorem bfs_out_reach (root : PlanNode) :
    ∀ x ∈ (bfsAux [root.id] [root] []).1, x ∈ root.reachNodes := by
  intro x hx
  rcases bfsAux_sound _ _ _ x hx with ⟨q, hq, hr⟩
  have hqroot : q = root := by
    rcases hq with h | h
    · simpa using h
    · simp at h
  exact hqroot ▸ hr

theorem bfs_vf_to_out (root : PlanNode)
    (H : ∀ a ∈ root.reachNodes, ∀ b ∈ root.reachNodes, a.id = b.id → a = b)
    (nd : PlanNode) (hreach : nd ∈ root.reachNodes)
    (hid : nd.id ∈ (bfsAux [root.id] [root] []).2) :
    nd ∈ (bfsAux [root.id] [root] []).1 := by
  rcases bfsAux_vis_char _ _ _ _ hid with h | h
  · have hnd : nd = root := H nd hreach root (reach_self root) (by simpa using h)
    exact hnd ▸ bfs_root_out root
  · rcases List.mem_map.1 h with ⟨y, hy, hidy⟩
    have hyreach : y ∈ root.reachNodes := bfs_out_reach root y hy
    have : y = nd := H y hyreach nd hreach hidy
    exact this ▸ hy

mutual
theorem bfs_reach_node (root : PlanNode)
    (H : ∀ a ∈ root.reachNodes, ∀ b ∈ root.reachNodes, a.id = b.id → a = b) :
    ∀ (nd : PlanNode), nd ∈ root.reachNodes → nd ∈ (bfsAux [root.id] [root] []).1 →
      ∀ a ∈ nd.reachNodes, a.id ∈ (bfsAux [root.id] [root] []).2
  | .mk i op ins lp st pp, hreach, hout, a, ha => by
    rw [reach_unfold] at ha
    rcases List.mem_cons.1 ha with h | h
    · subst h
      exact bfs_out_vf root _ hout
    · have hins : (PlanNode.mk i op ins lp st pp).inputs = ins := rfl
      refine bfs_reach_list root H ins ?_ a (by simpa [PlanNode.inputs] using h)
      intro j hj
      constructor
      · refine reach_trans root (.mk i op ins lp st pp) hreach j ?_
        rw [reach_unfold]
        exact List.mem_cons_of_mem _
          ((reachList_mem _ j).2 ⟨j, by simpa [PlanNode.inputs] using hj, reach_self j⟩)
      · exact bfsAux_closed _ _ _ _ hout j (by simpa [PlanNode.inputs] using hj)
theorem bfs_reach_list (root : PlanNode)
    (H : ∀ a ∈ root.reachNodes, ∀ b ∈ root.reachNodes, a.id = b.id → a = b) :
    ∀ (l : PlanNodeList),
      (∀ j ∈ l.toList, j ∈ root.reachNodes ∧ j.id ∈ (bfsAux [root.id] [root] []).2) →
      ∀ a ∈ PlanNodeList.reachNodes l, a.id ∈ (bfsAux [root.id] [root] []).2
  | .nil, _, a, ha => by simp [PlanNodeList.reachNodes] at ha
  | .cons h t, hj, a, ha => by
    simp only [PlanNodeList.reachNodes, List.mem_append] at ha
    rcases ha with h1 | h1
    · have hh := hj h (by simp [PlanNodeList.toList])
      exact bfs_reach_node root H h hh.1 (bfs_vf_to_out root H h hh.1 hh.2) a h1
    · refine bfs_reach_list root H t ?_ a h1
      intro j hjt
      exact hj j (by simp [PlanNodeList.toList]; exact Or.inr hjt)
end

theorem bfs_complete (root : PlanNode)
    (H : ∀ a ∈ root.reachNodes, ∀ b ∈ root.reachNodes, a.id = b.id → a = b) :
    ∀ a ∈ root.reachNodes, a.id ∈ (bfsAux [root.id] [root] []).2 :=
  bfs_reach_node root H root (reach_self root) (bfs_root_out root)

/- Concrete plans for claim C7. -/

/-- A shared leaf: scan of table b, id 2. -/
def c7NodeB : PlanNode :=
  .mk 2 (.Logical (.LogicalScan ⟨none, "b"⟩)) .nil none none none

/-- A limit over the shared leaf, id 1: a parent of `c7NodeB`. -/
def c7NodeA : PlanNode :=
  .mk 1 (.Logical (.LogicalLimit ⟨1⟩)) (.cons c7NodeB .nil) none none none

/-- Root with inputs `[c7NodeA, c7NodeB]` (the leaf is shared). -/
def c7Root : PlanNode :=
  .mk 0 (.Logical (.LogicalJoin ⟨.inner, trueLiteral⟩))
    (.cons c7NodeA (.cons c7NodeB .nil)) none none none

/-- A plan in which two distinct nodes share id 5 and one of them guards
the only path to the node with id 7. -/
def c7RootDup : PlanNode :=
  .mk 0 (.Logical (.LogicalJoin ⟨.inner, trueLiteral⟩))
    (.cons (.mk 5 (.Logical (.LogicalScan ⟨none, "y"⟩)) .nil none none none)
      (.cons (.mk 5 (.Logical (.LogicalLimit ⟨2⟩))
          (.cons (.mk 7 (.Logical (.LogicalScan ⟨none, "z"⟩)) .nil none none none) .nil)
          none none none)
        .nil))
    none none none

/-- C7, counterexample: the BFS iterator does not always yield parents
before children — on `c7Root` the parent `c7NodeA` of the shared leaf
`c7NodeB` is yielded after it (levels are consumed from the top of the
vector, i.e. in reverse push order) — and when distinct reachable nodes
share an id the yield count falls short of the number of distinct
reachable ids (2 versus 3 on `c7RootDup`). -/
theorem C7_counterexample :
    (Plan.bfs_iterator ⟨c7Root⟩ = [c7Root, c7NodeB, c7NodeA] ∧
      c7NodeB ∈ c7NodeA.inputs.toList) ∧
    ((Plan.bfs_iterator ⟨c7RootDup⟩).length = 2 ∧
      ((c7RootDup.reachNodes.map PlanNode.id).dedup).length = 3) := by
  refine ⟨⟨?_, by decide⟩, ?_, by decide⟩
  · simp [Plan.bfs_iterator, bfsAux, enqueueInputs, c7Root, c7NodeA, c7NodeB,
      PlanNode.id, PlanNode.inputs, PlanNodeList.toList, trueLiteral]
  · simp [Plan.bfs_iterator, bfsAux, enqueueInputs, c7RootDup,
      PlanNode.id, PlanNode.inputs, PlanNodeList.toList, trueLiteral]

/-- C7, amended: the BFS iterator yields each node at most once (the
yielded ids are pairwise distinct) and yields the root first; when all
nodes reachable from the root have pairwise distinct ids, the number of
yielded nodes equals the number of distinct reachable ids.  Parents are,
however, not always yielded before their children (see the
counterexample). -/
theorem C7_amended (p : Plan) :
    (p.bfs_iterator.map PlanNode.id).Nodup ∧
    p.bfs_iterator.head? = some p.root ∧
    ((∀ a ∈ p.root.reachNodes, ∀ b ∈ p.root.reachNodes, a.id = b.id → a = b) →
      p.bfs_iterator.length = ((p.root.reachNodes.map PlanNode.id).dedup).length) := by
  have hqueue : ∀ x : PlanNode, x ∈ [p.root] ∨ x ∈ ([] : List PlanNode) → x.id ∈ [p.root.id] := by
    intro x hx
    rcases hx with h | h
    · simp only [List.mem_singleton] at h
      subst h
      simp
    · simp at h
  have hnodup : (p.bfs_iterator.map PlanNode.id).Nodup :=
    bfsAux_nodup _ _ _ (by simp) hqueue
  refine ⟨hnodup, ?_, ?_⟩
  · rw [Plan.bfs_iterator, bfsAux_cons]
    rfl
  · intro H
    -- the sets of yielded ids and reachable ids agree
    have hset : ∀ a : Nat, a ∈ p.bfs_iterator.map PlanNode.id ↔
        a ∈ p.root.reachNodes.map PlanNode.id := by
      intro a
      constructor
      · intro ha
        rcases List.mem_map.1 ha with ⟨x, hx, hid⟩
        exact List.mem_map.2 ⟨x, bfs_out_reach p.root x hx, hid⟩
      · intro ha
        rcases List.mem_map.1 ha with ⟨x, hx, hid⟩
        have hvf := bfs_complete p.root H x hx
        rcases bfsAux_vis_char _ _ _ _ hvf with h | h
        · simp only [List.mem_singleton] at h
          exact List.mem_map.2 ⟨p.root, bfs_root_out p.root, by rw [hid] at h; exact h.symm⟩
        · exact hid ▸ h
    have hfin : (p.bfs_iterator.map PlanNode.id).toFinset =
        (p.root.reachNodes.map PlanNode.id).toFinset := by
      ext a
      simp only [List.mem_toFinset]
      exact hset a
    calc p.bfs_iterator.length
        = (p.bfs_iterator.map PlanNode.id).length := by simp
      _ = ((p.bfs_iterator.map PlanNode.id).dedup).length := by
          rw [hnodup.dedup]
      _ = (p.bfs_iterator.map PlanNode.id).toFinset.card := (List.card_toFinset _).symm
      _ = (p.root.reachNodes.map PlanNode.id).toFinset.card := by rw [hfin]
      _ = ((p.root.reachNodes.map PlanNode.id).dedup).length := List.card_toFinset _

theorem C7_amended_witness :
    ((Plan.bfs_iterator ⟨PlanNode.mk 0 (.Logical (.LogicalLimit ⟨4⟩))
        (.cons (PlanNode.mk 1 (.Logical (.LogicalScan ⟨none, "t"⟩)) .nil none none none)
          .nil) none none none⟩).map PlanNode.id).Nodup ∧
    (Plan.bfs_iterator ⟨PlanNode.mk 0 (.Logical (.LogicalLimit ⟨4⟩))
        (.cons (PlanNode.mk 1 (.Logical (.LogicalScan ⟨none, "t"⟩)) .nil none none none)
          .nil) none none none⟩).head? =
      some (PlanNode.mk 0 (.Logical (.LogicalLimit ⟨4⟩))
        (.cons (PlanNode.mk 1 (.Logical (.LogicalScan ⟨none, "t"⟩)) .nil none none none)
          .nil) none none none) ∧
    (Plan.bfs_iterator ⟨PlanNode.mk 0 (.Logical (.LogicalLimit ⟨4⟩))
        (.cons (PlanNode.mk 1 (.Logical (.LogicalScan ⟨none, "t"⟩)) .nil none none none)
          .nil) none none none⟩).length =
      ((((PlanNode.mk 0 (.Logical (.LogicalLimit ⟨4⟩))
        (.cons (PlanNode.mk 1 (.Logical (.LogicalScan ⟨none, "t"⟩)) .nil none none none)
          .nil) none none none)).reachNodes.map PlanNode.id).dedup).length :=
  ⟨(C7_amended ⟨PlanNode.mk 0 (.Logical (.LogicalLimit ⟨4⟩))
      (.cons (PlanNode.mk 1 (.Logical (.LogicalScan ⟨none, "t"⟩)) .nil none none none)
        .nil) none none none⟩).1,
   (C7_amended ⟨PlanNode.mk 0 (.Logical (.LogicalLimit ⟨4⟩))
      (.cons (PlanNode.mk 1 (.Logical (.LogicalScan ⟨none, "t"⟩)) .nil none none none)
        .nil) none none none⟩).2.1,
   (C7_amended ⟨PlanNode.mk 0 (.Logical (.LogicalLimit ⟨4⟩))
      (.cons (PlanNode.mk 1 (.Logical (.LogicalScan ⟨none, "t"⟩)) .nil none none none)
        .nil) none none none⟩).2.2 (by decide)⟩

/- ===== Heuristic plan graph (heuristic/graph.rs) =====

petgraph's `StableGraph` is modelled as follows: each node entry carries
its outgoing adjacency list `out` with the most recently added edge at
the head, exactly the order `neighbors_directed(.., Outgoing)` produces;
node entries are kept sorted by slot index (petgraph stores nodes in a
slot vector); removed slots go onto a vacancy list (`free`, most recent
first) that `add_node` reuses before extending the vector.  Incoming
neighbours are derived by scanning the node entries in slot order; the
only consumer (`replace_opt_expression`) adds one edge per incoming edge,
an effect that does not depend on the scan order. -/

/-- `HepOptimizerNode` together with its outgoing adjacency list. -/
structure HepOptimizerNode where
  id : Nat
  operator : Operator
  logical_prop : Option LogicalProperty
  stat : Option Statistics
  physical_props : Option PhysicalPropertySet
  out : List Nat
  deriving DecidableEq

/-- `PlanGraph`: the stable graph plus the root handle. -/
structure PlanGraph where
  nodes : List (Nat × HepOptimizerNode)
  root : Nat
  free : List Nat
  nextId : Nat
  deriving DecidableEq

/-- Insert a node entry keeping the slot order. -/
def insertSorted (i : Nat) (nd : HepOptimizerNode) :
    List (Nat × HepOptimizerNode) → List (Nat × HepOptimizerNode)
  | [] => [(i, nd)]
  | (k, m) :: t => if i < k then (i, nd) :: (k, m) :: t else (k, m) :: insertSorted i nd t

/-- `StableGraph::add_node`: reuse the most recently vacated slot, else a
fresh index. -/
def addNode (g : PlanGraph) (nd : HepOptimizerNode) : Nat × PlanGraph :=
  match g.free with
  | f :: fs => (f, { g with nodes := insertSorted f nd g.nodes, free := fs })
  | [] => (g.nextId, { g with nodes := insertSorted g.nextId nd g.nodes,
                              nextId := g.nextId + 1 })

/-- Point update of one node entry. -/
def updNode (g : PlanGraph) (i : Nat) (f : HepOptimizerNode → HepOptimizerNode) :
    PlanGraph :=
  { g with nodes := g.nodes.map (fun kn => if kn.1 = i then (kn.1, f kn.2) else kn) }

/-- `graph[id].id = id` (both From<Plan> and insert_opt_node do this). -/
def setNodeId (g : PlanGraph) (i : Nat) : PlanGraph :=
  updNode g i (fun nd => { nd with id := i })

/-- `StableGraph::add_edge`: the new edge goes to the head of the source
node's adjacency list. -/
def add_edge (g : PlanGraph) (a b : Nat) : PlanGraph :=
  updNode g a (fun nd => { nd with out := b :: nd.out })

/-- `neighbors_directed(i, Outgoing)`: most recent edge first. -/
def outNeighbors (g : PlanGraph) (i : Nat) : List Nat :=
  ((g.nodes.lookup i).map HepOptimizerNode.out).getD []

/-- `neighbors_directed(i, Incoming)`, one entry per incoming edge,
derived by a slot-order scan (see the modelling note above). -/
def incomingList (g : PlanGraph) (i : Nat) : List Nat :=
  (g.nodes.map (fun kn => List.replicate (kn.2.out.count i) kn.1)).flatten

/-- The incoming neighbour set of a node (for specification purposes). -/
def parentsOf (g : PlanGraph) (i : Nat) : List Nat :=
  (g.nodes.filter (fun kn => kn.2.out.contains i)).map Prod.fst

/-- `StableGraph::remove_node`: drops the entry and every incident edge,
and vacates the slot. -/
def remove_node (g : PlanGraph) (i : Nat) : PlanGraph :=
  { nodes := (g.nodes.filter (fun kn => kn.1 != i)).map
      (fun kn => (kn.1, { kn.2 with out := kn.2.out.filter (fun t => t != i) })),
    root := g.root,
    free := i :: g.free,
    nextId := g.nextId }

/-- petgraph `Bfs`: FIFO queue, root pre-discovered; neighbours of a
vacant slot are empty.  Fuel-driven so the definition stays structural;
`graphBfsBound` exceeds the total number of possible queue insertions
(one per discovery, and every discovered id is the root or some edge
target), so the fuel never runs out on the traversal itself. -/
def graphBfsAux (g : PlanGraph) : Nat → List Nat → List Nat → List Nat
  | 0, _, _ => []
  | _ + 1, [], _ => []
  | fuel + 1, h :: qs, disc =>
      let step := (outNeighbors g h).foldl
        (fun (acc : List Nat × List Nat) t =>
          if t ∈ acc.2 then acc else (acc.1 ++ [t], t :: acc.2)) (qs, disc)
      h :: graphBfsAux g fuel step.1 step.2

def graphBfsBound (g : PlanGraph) : Nat :=
  1 + g.nodes.length + (g.nodes.map (fun kn => kn.2.out.length)).sum

def graphBfs (g : PlanGraph) (root : Nat) : List Nat :=
  graphBfsAux g (graphBfsBound g) [root] [root]

/-- `MatchOrder` (heuristic/optimizer.rs). -/
inductive MatchOrder where
  | BottomUp
  | TopDown
  deriving DecidableEq

/-- `bottom_up_node_iters`: BFS order reversed. -/
def bottom_up_node_iters (g : PlanGraph) : List Nat := (graphBfs g g.root).reverse

/-- `top_down_node_iters`: BFS order. -/
def top_down_node_iters (g : PlanGraph) : List Nat := graphBfs g g.root

/-- `PlanGraph::nodes_iter`. -/
def nodes_iter (g : PlanGraph) (match_order : MatchOrder) : List Nat :=
  match match_order with
  | .TopDown => top_down_node_iters g
  | .BottomUp => bottom_up_node_iters g

/-- The children of a node being materialised: each outgoing neighbour is
looked up in the already-built map (`unwrap` on a missing child panics). -/
def collectInputs : List Nat → List (Nat × PlanNode) → Option (List PlanNode)
  | [], _ => some []
  | i :: is, acc =>
      match acc.lookup i with
      | none => none
      | some pn =>
          match collectInputs is acc with
          | none => none
          | some t => some (pn :: t)

/-- The body of `to_plan`'s loop over `bottom_up_node_iters`.  Note that
`next_plan_node_id` is the constant 1: it is never incremented, so every
materialised `PlanNode` receives id 1. -/
def toPlanAux (g : PlanGraph) : List Nat → List (Nat × PlanNode) →
    Option (List (Nat × PlanNode))
  | [], acc => some acc
  | nid :: rest, acc =>
      match g.nodes.lookup nid with
      | none => none
      | some nd =>
          match collectInputs (outNeighbors g nid) acc with
          | none => none
          | some ins =>
              toPlanAux g rest
                ((nid, PlanNode.mk 1 nd.operator (PlanNodeList.ofList ins)
                  nd.logical_prop nd.stat nd.physical_props) :: acc)

/-- `PlanGraph::to_plan`: materialise bottom-up, then unwrap the root. -/
def to_plan (g : PlanGraph) : Option Plan :=
  match toPlanAux g (bottom_up_node_iters g) [] with
  | none => none
  | some m => (m.lookup g.root).map (fun root => ⟨root⟩)

/- `From<Plan> for PlanGraph`.  The `parents` HashMap iteration order is
not fixed by the source (std HashMap), so edge insertion takes the entry
list as an explicit parameter; `parentsEntries` is the entry set in BFS
order, and any run of the Rust code iterates some permutation of it. -/

/-- `From<&PlanNode> for HepOptimizerNode` (id is `HepNodeId::default()`
until reset). -/
def hepNodeOfPlanNode (t : PlanNode) : HepOptimizerNode :=
  { id := 0, operator := t.operator, logical_prop := t.logical_prop,
    stat := t.stat, physical_props := t.physical_props, out := [] }

/-- First loop of `From<Plan>`: add one graph node per BFS-visited plan
node, reset its id, and record the plan-id to graph-id mapping. -/
def buildNodes : List PlanNode → PlanGraph → List (Nat × Nat) →
    PlanGraph × List (Nat × Nat)
  | [], g, m => (g, m)
  | nd :: rest, g, m =>
      let an := addNode g (hepNodeOfPlanNode nd)
      buildNodes rest (setNodeId an.2 an.1) ((nd.id, an.1) :: m)

/-- The `parents` map contents: one entry per BFS-visited node with at
least one input, keyed by the node's plan id, valued by its input ids in
order. -/
def parentsEntries (p : Plan) : List (Nat × List Nat) :=
  p.bfs_iterator.filterMap fun nd =>
    match nd.inputs.toList with
    | [] => none
    | _ :: _ => some (nd.id, nd.inputs.toList.map PlanNode.id)

/-- `node_id_map.get(..).unwrap()`; every key the construction uses is
present, so the default is never returned on the code's own inputs. -/
def mapLookup (m : List (Nat × Nat)) (k : Nat) : Nat := (m.lookup k).getD 0

/-- Second loop of `From<Plan>`: add the parent→child edges, iterating
the map entries in the given order. -/
def addParentEdges (g : PlanGraph) (m : List (Nat × Nat))
    (entries : List (Nat × List Nat)) : PlanGraph :=
  entries.foldl
    (fun g e => e.2.foldl (fun g iid => add_edge g (mapLookup m e.1) (mapLookup m iid)) g)
    g

/-- `From<Plan> for PlanGraph`, with the HashMap iteration order of the
`parents` map as an explicit parameter. -/
def planGraphOfPlan (p : Plan) (entries : List (Nat × List Nat)) : PlanGraph :=
  let bn := buildNodes p.bfs_iterator { nodes := [], root := 0, free := [], nextId := 0 } []
  let g := addParentEdges bn.1 bn.2 entries
  { g with root := mapLookup bn.2 p.root.id }

/- ===== OptExpression and graph rewriting (rules + heuristic/graph.rs) ===== -/

/-- `OptExprNode` (rules/mod.rs, used by graph.rs). -/
inductive OptExprNode where
  | OperatorNode (op : Operator)
  | ExprHandleNode (h : Nat)
  | GroupHandleNode (h : Nat)
  deriving DecidableEq

mutual
/-- `OptExpression`: a node with an ordered list of child expressions. -/
inductive OptExpression where
  | mk (node : OptExprNode) (inputs : OptExpressionList)
  deriving DecidableEq
inductive OptExpressionList where
  | nil
  | cons (head : OptExpression) (tail : OptExpressionList)
  deriving DecidableEq
end

def OptExpression.node : OptExpression → OptExprNode
  | .mk n _ => n

mutual
/-- `PlanGraph::insert_opt_node`: handles are reused unchanged; an
operator node is inserted after its children, its id reset to its slot,
and its child edges added in input order (so its `out` list holds them
in reverse). -/
def insert_opt_node (g : PlanGraph) : OptExpression → Nat × PlanGraph
  | .mk (.ExprHandleNode h) _ => (h, g)
  | .mk (.GroupHandleNode h) _ => (h, g)
  | .mk (.OperatorNode op) inputs =>
      let ci := insert_opt_nodes g inputs
      let hep_node : HepOptimizerNode :=
        { id := 0, operator := op, logical_prop := none, stat := none,
          physical_props := none, out := [] }
      let an := addNode ci.2 hep_node
      (an.1, ci.1.foldl (fun g c => add_edge g an.1 c) (setNodeId an.2 an.1))
def insert_opt_nodes (g : PlanGraph) : OptExpressionList → List Nat × PlanGraph
  | .nil => ([], g)
  | .cons h t =>
      let r1 := insert_opt_node g h
      let r2 := insert_opt_nodes r1.2 t
      (r1.1 :: r2.1, r2.2)
end

/-- `PlanGraph::replace_opt_expression`: insert the replacement, and when
its root handle differs from the origin, redirect every incoming edge of
the origin to it, remove the origin, and promote the root if needed; the
boolean reports whether the graph changed. -/
def replace_opt_expression (g : PlanGraph) (opt_node : OptExpression)
    (origin_node_id : Nat) : Bool × PlanGraph :=
  let ins := insert_opt_node g opt_node
  if ins.1 ≠ origin_node_id then
    let parent_node_ids := incomingList ins.2 origin_node_id
    let g2 := parent_node_ids.foldl (fun g parent => add_edge g parent ins.1) ins.2
    let g3 := remove_node g2 origin_node_id
    (true, if g3.root = origin_node_id then { g3 with root := ins.1 } else g3)
  else
    (false, ins.2)

/- ===== Patterns, binding, rules, and the optimizer loop ===== -/

mutual
/-- `Pattern` (rules/pattern.rs): an operator predicate with either child
patterns or none for a leaf. -/
inductive Pattern where
  | mk (predict : Operator → Bool) (children : Option PatternList)
inductive PatternList where
  | nil
  | cons (head : Pattern) (tail : PatternList)
end

mutual
/-- Modelled from the spec: the binding engine (heuristic/binding.rs is
not among the sources).  Per spec rules: the operator at the handle must
satisfy the predicate; a leaf pattern yields the handle as an
`ExprHandleNode` with children untouched; an inner pattern requires
exactly as many inputs as child patterns (the handle's inputs in
`neighbors_directed(Outgoing)` order) and wraps the operator as an
`OperatorNode` over the bound children; arity mismatch yields no binding.
This is the first element of the lazy binding sequence. -/
def bindFirst (g : PlanGraph) (h : Nat) : Pattern → Option OptExpression
  | .mk predict children =>
      match g.nodes.lookup h with
      | none => none
      | some nd =>
          if predict nd.operator then
            match children with
            | none => some (.mk (.ExprHandleNode h) .nil)
            | some pl =>
                match bindChildren g (outNeighbors g h) pl with
                | none => none
                | some cs => some (.mk (.OperatorNode nd.operator) cs)
          else none
def bindChildren (g : PlanGraph) : List Nat → PatternList → Option OptExpressionList
  | [], .nil => some .nil
  | i :: is, .cons ph pt =>
      match bindFirst g i ph with
      | none => none
      | some c =>
          match bindChildren g is pt with
          | none => none
          | some cs => some (.cons c cs)
  | [], .cons _ _ => none
  | _ :: _, .nil => none
end

/-- Modelled from the spec: a rewrite rule (rules/mod.rs is not among the
sources) is a pattern plus an `apply` that, given the bound
OptExpression, appends zero or more replacement OptExpressions to the
RuleResult (modelled as the returned list) or fails. -/
structure Rule where
  pattern : Pattern
  apply : OptExpression → Except String (List OptExpression)

/-- The `for (idx, new_expr) in results.results().enumerate()` loop of
`HepOptimizer::apply_rule`: the `ensure!(idx < 1, ..)` guard runs first,
then the body returns unconditionally — so the loop can only ever see
`idx = 0`. -/
def ruleResultLoop (g : PlanGraph) (origin : Nat) :
    Nat → List OptExpression → Except String (Option (Bool × PlanGraph))
  | _, [] => .ok none
  | idx, r :: _ =>
      if idx < 1 then .ok (some (replace_opt_expression g r origin))
      else .error "Rewrite rule should not return no more than 1 result."

/-- `HepOptimizer::apply_rule`: bind the first match, run the rule, and
replace with its result; reports whether the graph changed. -/
def apply_rule (g : PlanGraph) (rule : Rule) (expr_handle : Nat) :
    Except String (Bool × PlanGraph) :=
  match bindFirst g expr_handle rule.pattern with
  | none => .ok (false, g)
  | some opt_node =>
      match rule.apply opt_node with
      | .error e => .error e
      | .ok results =>
          match ruleResultLoop g expr_handle 0 results with
          | .error e => .error e
          | .ok (some res) => .ok res
          | .ok none => .ok (false, g)

/-- The inner rule loop of `find_best_plan`: try each rule in order at
one node, stopping at the first that changes the graph. -/
def tryRulesAtNode (h : Nat) : PlanGraph → List Rule →
    Except String (Option PlanGraph)
  | g, [] => .ok none
  | g, r :: rs =>
      match apply_rule g r h with
      | .error e => .error e
      | .ok (true, g') => .ok (some g')
      | .ok (false, g') => tryRulesAtNode h g' rs

/-- The node loop of one outer iteration: first change wins (the code
breaks out of the node enumeration as soon as `fixed_point` is false). -/
def sweepNodes (rules : List Rule) : PlanGraph → List Nat →
    Except String (Option PlanGraph)
  | _, [] => .ok none
  | g, h :: hs =>
      match tryRulesAtNode h g rules with
      | .error e => .error e
      | .ok (some g') => .ok (some g')
      | .ok none => sweepNodes rules g hs

/-- One outer iteration of `find_best_plan`: enumerate the node handles
in match order and return the changed graph, or `none` at a fixed point. -/
def sweep (rules : List Rule) (match_order : MatchOrder) (g : PlanGraph) :
    Except String (Option PlanGraph) :=
  sweepNodes rules g (nodes_iter g match_order)

/-- The outer loop of `HepOptimizer::find_best_plan`, together with the
number of outer iterations executed.  `to_plan`'s panics surface as
`Ok none`. -/
def find_best_plan_aux (rules : List Rule) (match_order : MatchOrder) :
    Nat → PlanGraph → Except String (Option Plan) × Nat
  | 0, g => (.ok (to_plan g), 0)
  | n + 1, g =>
      match sweep rules match_order g with
      | .error e => (.error e, 1)
      | .ok none => (.ok (to_plan g), 1)
      | .ok (some g') =>
          let r := find_best_plan_aux rules match_order n g'
          (r.1, r.2 + 1)

/-- `HepOptimizer::find_best_plan` for an optimizer with the given match
order, iteration cap, rule list and plan graph. -/
def find_best_plan (match_order : MatchOrder) (max_iter_times : Nat)
    (rules : List Rule) (g : PlanGraph) : Except String (Option Plan) :=
  (find_best_plan_aux rules match_order max_iter_times g).1

/- ===== Claim C1: rules returning more than one result ===== -/

/-- A one-node graph to run a rule on. -/
def c1Graph : PlanGraph :=
  { nodes := [(0, { id := 0,
                    operator := .Logical (.LogicalScan ⟨none, "t1"⟩),
                    logical_prop := none, stat := none,
                    physical_props := none, out := [] })],
    root := 0, free := [], nextId := 1 }

def c1FirstResult : OptExpression :=
  .mk (.OperatorNode (.Logical (.LogicalScan ⟨none, "first"⟩))) .nil

def c1SecondResult : OptExpression :=
  .mk (.OperatorNode (.Logical (.LogicalScan ⟨none, "second"⟩))) .nil

/-- A rewrite rule that matches anything and appends two replacement
expressions to the rule result. -/
def c1Rule : Rule :=
  { pattern := .mk (fun _ => true) none,
    apply := fun _ => .ok [c1FirstResult, c1SecondResult] }

/-- C1: a rule that returns two results does not make `apply_rule` fail
with the quoted error — the result loop returns on its first iteration,
so the `ensure!(idx < 1, ..)` guard is unreachable and the first
replacement is applied as if the rule were well-behaved. -/
theorem C1_two_results_not_rejected :
    apply_rule c1Graph c1Rule 0 = .ok (replace_opt_expression c1Graph c1FirstResult 0) ∧
    (replace_opt_expression c1Graph c1FirstResult 0).1 = true ∧
    exceptIsOk (apply_rule c1Graph c1Rule 0) = true := by
  exact ⟨by decide, by decide, by decide⟩

/- ===== Claim C8: termination of the heuristic pass ===== -/

/-- C8: `find_best_plan` executes at most `max_iter_times` outer
iterations whatever the rules do, and when it stops before reaching the
cap, the final sweep either made no change (fixed point) or aborted with
a rule error, and the returned value is the corresponding conversion of
the graph reached at that point. -/
theorem C8_termination (rules : List Rule) (mo : MatchOrder) (g : PlanGraph)
    (n : Nat) :
    (find_best_plan_aux rules mo n g).2 ≤ n ∧
    ((find_best_plan_aux rules mo n g).2 < n →
      ∃ g', (sweep rules mo g' = .ok none ∧
              find_best_plan mo n rules g = .ok (to_plan g')) ∨
            ∃ e, sweep rules mo g' = .error e ∧
              find_best_plan mo n rules g = .error e) := by
  induction n generalizing g with
  | zero =>
    exact ⟨Nat.le_refl 0, fun h => absurd h (by omega)⟩
  | succ n ih =>
    cases hs : sweep rules mo g with
    | error e =>
      refine ⟨?_, ?_⟩
      · simp [find_best_plan_aux, hs]
      · intro _
        exact ⟨g, Or.inr ⟨e, hs, by simp [find_best_plan, find_best_plan_aux, hs]⟩⟩
    | ok o =>
      cases o with
      | none =>
        refine ⟨?_, ?_⟩
        · simp [find_best_plan_aux, hs]
        · intro _
          exact ⟨g, Or.inl ⟨hs, by simp [find_best_plan, find_best_plan_aux, hs]⟩⟩
      | some g' =>
        have hcount : (find_best_plan_aux rules mo (n + 1) g).2 =
            (find_best_plan_aux rules mo n g').2 + 1 := by
          simp [find_best_plan_aux, hs]
        have hval : (find_best_plan_aux rules mo (n + 1) g).1 =
            (find_best_plan_aux rules mo n g').1 := by
          simp [find_best_plan_aux, hs]
        refine ⟨?_, ?_⟩
        · rw [hcount]
          exact Nat.succ_le_succ (ih g').1
        · intro hlt
          rw [hcount] at hlt
          rcases (ih g').2 (by omega) with ⟨g'', hg''⟩
          refine ⟨g'', ?_⟩
          rcases hg'' with ⟨h1, h2⟩ | ⟨e, h1, h2⟩
          · exact Or.inl ⟨h1, by rw [find_best_plan, hval]; exact h2⟩
          · exact Or.inr ⟨e, h1, by rw [find_best_plan, hval]; exact h2⟩

/-- A two-node graph (limit over scan) for the termination witness. -/
def c8Graph : PlanGraph :=
  { nodes := [
      (0, { id := 0,
            operator := .Logical (.LogicalLimit ⟨10⟩),
            logical_prop := none, stat := none,
            physical_props := none, out := [1] }),
      (1, { id := 1,
            operator := .Logical (.LogicalScan ⟨none, "t"⟩),
            logical_prop := none, stat := none,
            physical_props := none, out := [] })],
    root := 0, free := [], nextId := 2 }

theorem C8_termination_witness :
    (find_best_plan_aux [] .TopDown 3 c8Graph).2 ≤ 3 ∧
    (∃ g', (sweep [] .TopDown g' = .ok none ∧
            find_best_plan .TopDown 3 [] c8Graph = .ok (to_plan g')) ∨
          ∃ e, sweep [] .TopDown g' = .error e ∧
            find_best_plan .TopDown 3 [] c8Graph = .error e) :=
  ⟨(C8_termination [] .TopDown c8Graph 3).1,
   (C8_termination [] .TopDown c8Graph 3).2 (by decide)⟩

/- ===== Claim C9: ids of plans produced by to_plan ===== -/

mutual
/-- Every node of the (sub)plan has id 1. -/
def PlanNode.allIdsOne : PlanNode → Bool
  | .mk i _ ins _ _ _ => (i == 1) && PlanNodeList.allIdsOne ins
def PlanNodeList.allIdsOne : PlanNodeList → Bool
  | .nil => true
  | .cons h t => PlanNode.allIdsOne h && PlanNodeList.allIdsOne t
end

theorem lookup_mem {α : Type} : ∀ (l : List (Nat × α)) (k : Nat) (v : α),
    l.lookup k = some v → (k, v) ∈ l := by
  intro l
  induction l with
  | nil => intro k v h; simp [List.lookup] at h
  | cons kv t ih =>
    intro k v h
    cases kv with
    | mk k' v' =>
      rw [List.lookup] at h
      by_cases hk : k = k'
      · subst hk
        simp only [beq_self_eq_true, Option.some.injEq] at h
        exact h ▸ List.mem_cons_self _ _
      · have hbeq : (k == k') = false := beq_eq_false_iff_ne.2 hk
        simp only [hbeq] at h
        exact List.mem_cons_of_mem _ (ih k v h)

theorem allIdsOne_ofList (l : List PlanNode) :
    PlanNodeList.allIdsOne (PlanNodeList.ofList l) = l.all PlanNode.allIdsOne := by
  induction l with
  | nil => rfl
  | cons h t ih => simp [PlanNodeList.ofList, PlanNodeList.allIdsOne, ih]

theorem collectInputs_mem : ∀ (is : List Nat) (acc : List (Nat × PlanNode))
    (l : List PlanNode), collectInputs is acc = some l →
      ∀ x ∈ l, ∃ k, (k, x) ∈ acc := by
  intro is
  induction is with
  | nil =>
    intro acc l h x hx
    simp [collectInputs] at h
    subst h
    simp at hx
  | cons i is ih =>
    intro acc l h x hx
    rw [collectInputs] at h
    cases hl : acc.lookup i with
    | none => rw [hl] at h; simp at h
    | some pn =>
      rw [hl] at h
      cases hc : collectInputs is acc with
      | none => rw [hc] at h; simp at h
      | some t =>
        rw [hc] at h
        simp only [Option.some.injEq] at h
        subst h
        rcases List.mem_cons.1 hx with h1 | h1
        · exact ⟨i, h1 ▸ lookup_mem acc i pn hl⟩
        · exact ih acc t hc x h1

theorem toPlanAux_inv (g : PlanGraph) : ∀ (order : List Nat)
    (acc m : List (Nat × PlanNode)),
    (∀ kv ∈ acc, PlanNode.allIdsOne kv.2 = true) →
    toPlanAux g order acc = some m →
    ∀ kv ∈ m, PlanNode.allIdsOne kv.2 = true := by
  intro order
  induction order with
  | nil =>
    intro acc m hacc h
    rw [toPlanAux] at h
    simp only [Option.some.injEq] at h
    exact h ▸ hacc
  | cons nid rest ih =>
    intro acc m hacc h
    rw [toPlanAux] at h
    cases hn : g.nodes.lookup nid with
    | none => rw [hn] at h; simp at h
    | some nd =>
      rw [hn] at h
      cases hc : collectInputs (outNeighbors g nid) acc with
      | none => rw [hc] at h; simp at h
      | some ins =>
        rw [hc] at h
        refine ih _ m ?_ h
        intro kv hkv
        rcases List.mem_cons.1 hkv with h1 | h1
        · subst h1
          simp only [PlanNode.allIdsOne, allIdsOne_ofList, Bool.and_eq_true, beq_self_eq_true,
            true_and]
          rw [List.all_eq_true]
          intro x hx
          rcases collectInputs_mem _ _ _ hc x hx with ⟨k, hk⟩
          exact hacc (k, x) hk
        · exact hacc kv h1

theorem allIdsOne_id {nd : PlanNode} (h : PlanNode.allIdsOne nd = true) : nd.id = 1 := by
  cases nd with
  | mk i op ins lp st pp =>
    simp [PlanNode.allIdsOne] at h
    simpa [PlanNode.id] using h.1

theorem allIdsOneList_mem : ∀ (l : PlanNodeList), PlanNodeList.allIdsOne l = true →
    ∀ i ∈ l.toList, PlanNode.allIdsOne i = true
  | .nil, _, i, hi => by simp [PlanNodeList.toList] at hi
  | .cons h t, hl, i, hi => by
    simp only [PlanNodeList.allIdsOne, Bool.and_eq_true] at hl
    rcases List.mem_cons.1 (by simpa [PlanNodeList.toList] using hi) with h1 | h1
    · exact h1 ▸ hl.1
    · exact allIdsOneList_mem t hl.2 i h1

theorem allIdsOne_inputs {nd : PlanNode} (h : PlanNode.allIdsOne nd = true) :
    ∀ i ∈ nd.inputs.toList, PlanNode.allIdsOne i = true := by
  cases nd with
  | mk i op ins lp st pp =>
    simp only [PlanNode.allIdsOne, Bool.and_eq_true] at h
    exact allIdsOneList_mem ins h.2

theorem enqueue_all_visited : ∀ (is : List PlanNode) (v : List Nat)
    (nl : List PlanNode), (∀ i ∈ is, i.id ∈ v) → enqueueInputs is v nl = (v, nl) := by
  intro is
  induction is with
  | nil => intro v nl _; rfl
  | cons i is ih =>
    intro v nl h
    have hi : i.id ∈ v := h i (List.mem_cons_self _ _)
    rw [enqueueInputs, if_pos hi]
    exact ih v nl fun j hj => h j (List.mem_cons_of_mem _ hj)

theorem bfs_all_ones_single (root : PlanNode) (h : PlanNode.allIdsOne root = true) :
    Plan.bfs_iterator ⟨root⟩ = [root] := by
  rw [Plan.bfs_iterator]
  have hall : ∀ i ∈ root.inputs.toList, i.id ∈ [PlanNode.id root] := by
    intro i hi
    rw [allIdsOne_id (allIdsOne_inputs h i hi), allIdsOne_id h]
    exact List.mem_singleton.2 rfl
  rw [bfsAux_cons, enqueue_all_visited _ _ _ hall, bfsAux_nil_nil]

/-- C9: every plan node materialised by `to_plan` carries id 1 (the
reconstruction counter is never incremented), and consequently the BFS
iterator — which dedups by id — yields only the root of such a plan; the
same holds for every plan returned by `find_best_plan`. -/
theorem C9_to_plan_all_ids_one :
    (∀ (g : PlanGraph) (plan : Plan), to_plan g = some plan →
      PlanNode.allIdsOne plan.root = true ∧ Plan.bfs_iterator plan = [plan.root]) ∧
    (∀ (mo : MatchOrder) (n : Nat) (rules : List Rule) (g : PlanGraph) (plan : Plan),
      find_best_plan mo n rules g = .ok (some plan) →
      PlanNode.allIdsOne plan.root = true ∧ Plan.bfs_iterator plan = [plan.root]) := by
  have hto : ∀ (g : PlanGraph) (plan : Plan), to_plan g = some plan →
      PlanNode.allIdsOne plan.root = true ∧ Plan.bfs_iterator plan = [plan.root] := by
    intro g plan h
    rw [to_plan] at h
    cases hm : toPlanAux g (bottom_up_node_iters g) [] with
    | none => rw [hm] at h; simp at h
    | some m =>
      rw [hm] at h
      change Option.map (fun root => Plan.mk root) (m.lookup g.root) = some plan at h
      cases hr : m.lookup g.root with
      | none => rw [hr] at h; simp at h
      | some root =>
        rw [hr] at h
        simp only [Option.map_some', Option.some.injEq] at h
        have hmem := lookup_mem m g.root root hr
        have hids := toPlanAux_inv g _ [] m (by simp) hm (g.root, root) hmem
        have hroot : plan.root = root := by rw [← h]
        rw [hroot]
        refine ⟨hids, ?_⟩
        have := bfs_all_ones_single root hids
        cases plan with
        | mk r =>
          simp only [Plan.mk.injEq] at h
          rw [← h]
          exact this
  refine ⟨hto, ?_⟩
  intro mo n rules g plan h
  induction n generalizing g with
  | zero =>
    rw [find_best_plan, find_best_plan_aux] at h
    simp only [Except.ok.injEq] at h
    exact hto g plan h
  | succ n ih =>
    rw [find_best_plan, find_best_plan_aux] at h
    cases hs : sweep rules mo g with
    | error e => rw [hs] at h; simp at h
    | ok o =>
      rw [hs] at h
      cases o with
      | none =>
        simp only [Except.ok.injEq] at h
        exact hto g plan h
      | some g' =>
        exact ih g' h

/-- A two-node graph (limit over scan) whose materialised plan has both
nodes carrying id 1. -/
def c9Graph : PlanGraph :=
  { nodes := [
      (0, { id := 0,
            operator := .Logical (.LogicalLimit ⟨10⟩),
            logical_prop := none, stat := none,
            physical_props := none, out := [1] }),
      (1, { id := 1,
            operator := .Logical (.LogicalScan ⟨none, "t"⟩),
            logical_prop := none, stat := none,
            physical_props := none, out := [] })],
    root := 0, free := [], nextId := 2 }

def c9Plan : Plan :=
  ⟨PlanNode.mk 1 (.Logical (.LogicalLimit ⟨10⟩))
    (.cons (PlanNode.mk 1 (.Logical (.LogicalScan ⟨none, "t"⟩)) .nil none none none) .nil)
    none none none⟩

theorem C9_to_plan_all_ids_one_witness :
    PlanNode.allIdsOne c9Plan.root = true ∧ Plan.bfs_iterator c9Plan = [c9Plan.root] :=
  C9_to_plan_all_ids_one.1 c9Graph c9Plan (by decide)

/- ===== Claim C6: graph replace correctness ===== -/

theorem mem_parentsOf (g : PlanGraph) (i x : Nat) :
    x ∈ parentsOf g i ↔ ∃ nd, (x, nd) ∈ g.nodes ∧ i ∈ nd.out := by
  simp only [parentsOf, List.mem_map, List.mem_filter]
  constructor
  · rintro ⟨kn, ⟨hmem, hc⟩, hfst⟩
    cases kn with
    | mk k nd =>
      simp only at hfst hc
      subst hfst
      exact ⟨nd, hmem, List.elem_iff.1 hc⟩
  · rintro ⟨nd, hmem, hout⟩
    exact ⟨(x, nd), ⟨hmem, List.elem_iff.2 hout⟩, rfl⟩

theorem mem_nodes_updNode (g : PlanGraph) (i : Nat)
    (f : HepOptimizerNode → HepOptimizerNode) (x : Nat) (nd : HepOptimizerNode) :
    (x, nd) ∈ (updNode g i f).nodes ↔
      ∃ nd0, (x, nd0) ∈ g.nodes ∧
        ((x = i ∧ nd = f nd0) ∨ (x ≠ i ∧ nd = nd0)) := by
  simp only [updNode, List.mem_map]
  constructor
  · rintro ⟨kn, hkn, hupd⟩
    cases kn with
    | mk k nd0 =>
      by_cases hk : k = i
      · rw [if_pos (show (k, nd0).1 = i from hk)] at hupd
        rw [Prod.mk.injEq] at hupd
        obtain ⟨hx, hnd⟩ := hupd
        subst hx
        exact ⟨nd0, hkn, Or.inl ⟨hk, hnd.symm⟩⟩
      · rw [if_neg (show ¬ (k, nd0).1 = i from hk)] at hupd
        rw [Prod.mk.injEq] at hupd
        obtain ⟨hx, hnd⟩ := hupd
        subst hx
        exact ⟨nd0, hkn, Or.inr ⟨hk, hnd.symm⟩⟩
  · rintro ⟨nd0, hmem, (⟨hx, hnd⟩ | ⟨hx, hnd⟩)⟩
    · exact ⟨(x, nd0), hmem, by simp [hx, hnd]⟩
    · exact ⟨(x, nd0), hmem, by simp [hx, hnd]⟩

theorem keys_updNode (g : PlanGraph) (i : Nat) (f : HepOptimizerNode → HepOptimizerNode) :
    (updNode g i f).nodes.map Prod.fst = g.nodes.map Prod.fst := by
  simp only [updNode, List.map_map]
  refine List.map_congr_left ?_
  intro kn _
  by_cases h : kn.1 = i <;> simp [h]

theorem keys_add_edge (g : PlanGraph) (a b : Nat) :
    (add_edge g a b).nodes.map Prod.fst = g.nodes.map Prod.fst :=
  keys_updNode g a _

theorem parentsOf_add_edge (g : PlanGraph) (a b t x : Nat) :
    x ∈ parentsOf (add_edge g a b) t ↔
      x ∈ parentsOf g t ∨ (x = a ∧ b = t ∧ a ∈ g.nodes.map Prod.fst) := by
  rw [mem_parentsOf, mem_parentsOf]
  unfold add_edge
  constructor
  · rintro ⟨nd, hmem, hout⟩
    rcases (mem_nodes_updNode g a _ x nd).1 hmem with ⟨nd0, hmem0, (⟨hx, hnd⟩ | ⟨hx, hnd⟩)⟩
    · subst hnd
      rcases List.mem_cons.1 hout with h1 | h1
      · exact Or.inr ⟨hx, h1.symm, List.mem_map.2 ⟨(x, nd0), hmem0, hx⟩⟩
      · exact Or.inl ⟨nd0, hmem0, h1⟩
    · exact Or.inl ⟨nd0, hmem0, hnd ▸ hout⟩
  · rintro (⟨nd, hmem, hout⟩ | ⟨hxa, hbt, hkey⟩)
    · by_cases hx : x = a
      · exact ⟨{ nd with out := b :: nd.out },
          (mem_nodes_updNode g a _ x _).2 ⟨nd, hmem, Or.inl ⟨hx, rfl⟩⟩,
          List.mem_cons_of_mem _ hout⟩
      · exact ⟨nd, (mem_nodes_updNode g a _ x _).2 ⟨nd, hmem, Or.inr ⟨hx, rfl⟩⟩, hout⟩
    · rcases List.mem_map.1 hkey with ⟨kn, hkn, hfst⟩
      cases kn with
      | mk k nd0 =>
        simp only at hfst
        subst hfst
        subst hxa
        exact ⟨{ nd0 with out := b :: nd0.out },
          (mem_nodes_updNode g x _ x _).2 ⟨nd0, hkn, Or.inl ⟨rfl, rfl⟩⟩,
          hbt ▸ List.mem_cons_self _ _⟩

theorem parentsOf_foldl_add (target : Nat) : ∀ (L : List Nat) (g : PlanGraph) (x : Nat),
    (∀ y ∈ L, y ∈ g.nodes.map Prod.fst) →
    (x ∈ parentsOf (L.foldl (fun g parent => add_edge g parent target) g) target ↔
      x ∈ parentsOf g target ∨ x ∈ L) := by
  intro L
  induction L with
  | nil => intro g x _; simp
  | cons y L ih =>
    intro g x hL
    rw [List.foldl_cons]
    have hkeys : ∀ z ∈ L, z ∈ (add_edge g y target).nodes.map Prod.fst := by
      intro z hz
      rw [keys_add_edge]
      exact hL z (List.mem_cons_of_mem _ hz)
    rw [ih (add_edge g y target) x hkeys, parentsOf_add_edge]
    constructor
    · rintro ((h | ⟨h1, _, _⟩) | h)
      · exact Or.inl h
      · exact Or.inr (h1 ▸ List.mem_cons_self _ _)
      · exact Or.inr (List.mem_cons_of_mem _ h)
    · rintro (h | h)
      · exact Or.inl (Or.inl h)
      · rcases List.mem_cons.1 h with h1 | h1
        · exact Or.inl (Or.inr ⟨h1, rfl, hL y (List.mem_cons_self _ _)⟩)
        · exact Or.inr h1

theorem mem_nodes_remove (g : PlanGraph) (o x : Nat) (nd : HepOptimizerNode) :
    (x, nd) ∈ (remove_node g o).nodes ↔
      x ≠ o ∧ ∃ nd0, (x, nd0) ∈ g.nodes ∧
        nd = { nd0 with out := nd0.out.filter (fun t => t != o) } := by
  simp only [remove_node, List.mem_map, List.mem_filter]
  constructor
  · rintro ⟨kn, ⟨hmem, hne⟩, heq⟩
    cases kn with
    | mk k nd0 =>
      rw [Prod.mk.injEq] at heq
      simp only at hne
      refine ⟨heq.1 ▸ bne_iff_ne.1 hne, nd0, heq.1 ▸ hmem, heq.2.symm⟩
  · rintro ⟨hne, nd0, hmem, hnd⟩
    exact ⟨(x, nd0), ⟨hmem, by simpa using hne⟩, by rw [hnd]⟩

theorem parentsOf_remove (g : PlanGraph) (o t x : Nat) (ht : t ≠ o) :
    x ∈ parentsOf (remove_node g o) t ↔ x ≠ o ∧ x ∈ parentsOf g t := by
  rw [mem_parentsOf, mem_parentsOf]
  constructor
  · rintro ⟨nd, hmem, hout⟩
    rcases (mem_nodes_remove g o x nd).1 hmem with ⟨hne, nd0, hmem0, hnd⟩
    subst hnd
    simp only [List.mem_filter] at hout
    exact ⟨hne, nd0, hmem0, hout.1⟩
  · rintro ⟨hne, nd, hmem, hout⟩
    refine ⟨{ nd with out := nd.out.filter (fun t => t != o) },
      (mem_nodes_remove g o x _).2 ⟨hne, nd, hmem, rfl⟩, ?_⟩
    simp only [List.mem_filter]
    exact ⟨hout, by simpa using ht⟩

theorem incoming_eq_parents (g : PlanGraph) (i x : Nat) :
    x ∈ incomingList g i ↔ x ∈ parentsOf g i := by
  rw [mem_parentsOf]
  simp only [incomingList, List.mem_flatten, List.mem_map]
  constructor
  · rintro ⟨l, ⟨kn, hkn, hl⟩, hx⟩
    rw [← hl] at hx
    rcases List.mem_replicate.1 hx with ⟨hcount, hxk⟩
    cases kn with
    | mk k nd =>
      simp only at hcount hxk
      subst hxk
      refine ⟨nd, hkn, ?_⟩
      have : 0 < nd.out.count i := Nat.pos_of_ne_zero (by simpa using hcount)
      exact List.count_pos_iff.1 this
  · rintro ⟨nd, hmem, hout⟩
    refine ⟨List.replicate (nd.out.count i) x, ⟨(x, nd), hmem, rfl⟩, ?_⟩
    refine List.mem_replicate.2 ⟨?_, rfl⟩
    have : 0 < nd.out.count i := List.count_pos_iff.2 hout
    omega

theorem incoming_keys (g : PlanGraph) (i : Nat) :
    ∀ x ∈ incomingList g i, x ∈ g.nodes.map Prod.fst := by
  intro x hx
  rcases (mem_parentsOf g i x).1 ((incoming_eq_parents g i x).1 hx) with ⟨nd, hmem, _⟩
  exact List.mem_map.2 ⟨(x, nd), hmem, rfl⟩

theorem lookup_eq_none_of_keys {α : Type} : ∀ (l : List (Nat × α)) (k : Nat),
    (∀ kv ∈ l, kv.1 ≠ k) → l.lookup k = none := by
  intro l
  induction l with
  | nil => intro k _; rfl
  | cons kv t ih =>
    intro k h
    cases kv with
    | mk k' v' =>
      rw [List.lookup]
      have : (k == k') = false :=
        beq_eq_false_iff_ne.2 fun hk => (h (k', v') (List.mem_cons_self _ _)) (hk ▸ rfl)
      simp only [this]
      exact ih k fun kv hkv => h kv (List.mem_cons_of_mem _ hkv)

theorem lookup_remove_self (g : PlanGraph) (o : Nat) :
    (remove_node g o).nodes.lookup o = none := by
  apply lookup_eq_none_of_keys
  intro kv hkv
  simp only [remove_node, List.mem_map, List.mem_filter] at hkv
  rcases hkv with ⟨kn, ⟨_, hne⟩, heq⟩
  rw [← heq]
  exact bne_iff_ne.1 hne

theorem root_updNode (g : PlanGraph) (i : Nat) (f : HepOptimizerNode → HepOptimizerNode) :
    (updNode g i f).root = g.root := rfl

theorem root_addNode (g : PlanGraph) (nd : HepOptimizerNode) :
    (addNode g nd).2.root = g.root := by
  cases h : g.free with
  | nil => simp [addNode, h]
  | cons f fs => simp [addNode, h]

theorem root_setNodeId (g : PlanGraph) (i : Nat) : (setNodeId g i).root = g.root := rfl

theorem root_foldl_add_edge : ∀ (L : List Nat) (g : PlanGraph) (a : Nat),
    (L.foldl (fun g c => add_edge g a c) g).root = g.root := by
  intro L
  induction L with
  | nil => intro g a; rfl
  | cons c L ih => intro g a; rw [List.foldl_cons, ih]; rfl

theorem root_foldl_add_edge_from : ∀ (L : List Nat) (g : PlanGraph) (target : Nat),
    (L.foldl (fun g parent => add_edge g parent target) g).root = g.root := by
  intro L
  induction L with
  | nil => intro g t; rfl
  | cons c L ih => intro g t; rw [List.foldl_cons, ih]; rfl

mutual
theorem root_insert : ∀ (e : OptExpression) (g : PlanGraph),
    (insert_opt_node g e).2.root = g.root
  | .mk (.ExprHandleNode h) _, g => rfl
  | .mk (.GroupHandleNode h) _, g => rfl
  | .mk (.OperatorNode op) inputs, g => by
    rw [insert_opt_node]
    rw [root_foldl_add_edge, root_setNodeId, root_addNode]
    exact root_inserts inputs g
theorem root_inserts : ∀ (l : OptExpressionList) (g : PlanGraph),
    (insert_opt_nodes g l).2.root = g.root
  | .nil, g => rfl
  | .cons h t, g => by
    rw [insert_opt_nodes]
    rw [root_inserts t, root_insert h]
end

theorem root_remove (g : PlanGraph) (o : Nat) : (remove_node g o).root = g.root := rfl

/-- C6, counterexample: replacing a node with a handle to an existing node
that already has another parent gives the new node strictly more parents
than the origin had, contradicting the claim that the new node ends with
exactly the origin's parent set. -/
def c6Graph : PlanGraph :=
  { nodes := [
      (0, { id := 0,
            operator := .Logical (.LogicalJoin ⟨.inner, trueLiteral⟩),
            logical_prop := none, stat := none,
            physical_props := none, out := [2, 1] }),
      (1, { id := 1,
            operator := .Logical (.LogicalScan ⟨none, "a"⟩),
            logical_prop := none, stat := none,
            physical_props := none, out := [] }),
      (2, { id := 2,
            operator := .Logical (.LogicalLimit ⟨5⟩),
            logical_prop := none, stat := none,
            physical_props := none, out := [3] }),
      (3, { id := 3,
            operator := .Logical (.LogicalScan ⟨none, "b"⟩),
            logical_prop := none, stat := none,
            physical_props := none, out := [] })],
    root := 0, free := [], nextId := 4 }

theorem C6_counterexample :
    (insert_opt_node c6Graph (.mk (.ExprHandleNode 3) .nil)).1 = 3 ∧
    (replace_opt_expression c6Graph (.mk (.ExprHandleNode 3) .nil) 1).1 = true ∧
    2 ∈ parentsOf (replace_opt_expression c6Graph (.mk (.ExprHandleNode 3) .nil) 1).2 3 ∧
    2 ∉ parentsOf c6Graph 1 := by
  decide

/-- C6, amended: when the inserted replacement's root handle differs from
the origin, the replace operation returns true, the origin is absent from
the resulting graph, the root is promoted when the origin was the root,
and the new node's parent set is the union of the origin's parents with
the new node's own previous parents (both taken after the insertion
step), minus the origin itself; when the replacement is a freshly
inserted operator node it has no previous parents, so the set is exactly
the origin's former parent set. -/
theorem C6_amended (g : PlanGraph) (e : OptExpression) (origin : Nat)
    (hne : (insert_opt_node g e).1 ≠ origin) :
    (replace_opt_expression g e origin).1 = true ∧
    (replace_opt_expression g e origin).2.nodes.lookup origin = none ∧
    (g.root = origin →
      (replace_opt_expression g e origin).2.root = (insert_opt_node g e).1) ∧
    (∀ x, x ∈ parentsOf (replace_opt_expression g e origin).2 (insert_opt_node g e).1 ↔
      (x ≠ origin ∧ (x ∈ parentsOf (insert_opt_node g e).2 origin ∨
                     x ∈ parentsOf (insert_opt_node g e).2 (insert_opt_node g e).1))) := by
  rw [replace_opt_expression]
  rw [if_pos hne]
  simp only
  set ins := insert_opt_node g e with hins
  set g2 := (incomingList ins.2 origin).foldl (fun g parent => add_edge g parent ins.1) ins.2
    with hg2
  set g3 := remove_node g2 origin with hg3
  have hg3root : g3.root = g.root := by
    rw [hg3, root_remove, hg2, root_foldl_add_edge_from, hins, root_insert]
  have hnodes : (if g3.root = origin then { g3 with root := ins.1 } else g3).nodes =
      g3.nodes := by
    by_cases h : g3.root = origin <;> simp [h]
  refine ⟨trivial, ?_, ?_, ?_⟩
  · show (if g3.root = origin then { g3 with root := ins.1 } else g3).nodes.lookup origin
        = none
    rw [hnodes, hg3]
    exact lookup_remove_self g2 origin
  · intro hroot
    show (if g3.root = origin then { g3 with root := ins.1 } else g3).root = ins.1
    rw [if_pos (by rw [hg3root, hroot])]
  · intro x
    show x ∈ parentsOf (if g3.root = origin then { g3 with root := ins.1 } else g3) ins.1 ↔ _
    have hpar : parentsOf (if g3.root = origin then { g3 with root := ins.1 } else g3) ins.1 =
        parentsOf g3 ins.1 := by
      by_cases h : g3.root = origin <;> simp [parentsOf, h]
    rw [hpar, hg3, parentsOf_remove g2 origin ins.1 x hne]
    rw [hg2, parentsOf_foldl_add ins.1 (incomingList ins.2 origin) ins.2 x
      (incoming_keys ins.2 origin)]
    constructor
    · rintro ⟨hxo, (h | h)⟩
      · exact ⟨hxo, Or.inr h⟩
      · exact ⟨hxo, Or.inl ((incoming_eq_parents ins.2 origin x).1 h)⟩
    · rintro ⟨hxo, (h | h)⟩
      · exact ⟨hxo, Or.inr ((incoming_eq_parents ins.2 origin x).2 h)⟩
      · exact ⟨hxo, Or.inl h⟩

theorem C6_amended_witness :
    (replace_opt_expression c6Graph (.mk (.ExprHandleNode 3) .nil) 1).1 = true ∧
    (replace_opt_expression c6Graph (.mk (.ExprHandleNode 3) .nil) 1).2.nodes.lookup 1
      = none ∧
    (2 ∈ parentsOf (replace_opt_expression c6Graph (.mk (.ExprHandleNode 3) .nil) 1).2
        (insert_opt_node c6Graph (.mk (.ExprHandleNode 3) .nil)).1 ↔
      (2 ≠ 1 ∧
        (2 ∈ parentsOf (insert_opt_node c6Graph (.mk (.ExprHandleNode 3) .nil)).2 1 ∨
         2 ∈ parentsOf (insert_opt_node c6Graph (.mk (.ExprHandleNode 3) .nil)).2
           (insert_opt_node c6Graph (.mk (.ExprHandleNode 3) .nil)).1))) :=
  have h := C6_amended c6Graph (.mk (.ExprHandleNode 3) .nil) 1 (by decide)
  ⟨h.1, h.2.1, h.2.2.2 2⟩

/- ===== Claim C3: determinism of the heuristic pass =====

The only run-to-run nondeterminism in the sources is the iteration order
of the `parents` HashMap in `From<Plan> for PlanGraph`: edge insertion
happens per map entry, and std HashMap iteration order is unspecified.
`planGraphOfPlan` therefore takes the entry order as a parameter; the
theorem shows the constructed graph — and with it the node enumeration
and the whole optimization result — is the same for any two orders. -/

theorem foldl_perm_of_comm {α β : Type} {f : β → α → β} :
    ∀ {l₁ l₂ : List α}, l₁.Perm l₂ →
    (∀ x ∈ l₁, ∀ y ∈ l₁, ∀ b, f (f b x) y = f (f b y) x) →
    ∀ b, l₁.foldl f b = l₂.foldl f b := by
  intro l₁ l₂ hp
  induction hp with
  | nil => intro _ b; rfl
  | cons x p ih =>
    intro hc b
    rw [List.foldl_cons, List.foldl_cons]
    exact ih
      (fun a ha a' ha' c =>
        hc a (List.mem_cons_of_mem _ ha) a' (List.mem_cons_of_mem _ ha') c) (f b x)
  | swap x y l =>
    intro hc b
    rw [List.foldl_cons, List.foldl_cons, List.foldl_cons, List.foldl_cons]
    rw [hc y (by simp) x (by simp) b]
  | trans p1 p2 ih1 ih2 =>
    intro hc b
    rw [ih1 hc b]
    exact ih2 (fun a ha a' ha' c => hc a (p1.mem_iff.2 ha) a' (p1.mem_iff.2 ha') c) b

/-- The BFS iterator of a plan yields pairwise distinct ids. -/
theorem bfs_ids_nodup (p : Plan) : (p.bfs_iterator.map PlanNode.id).Nodup := by
  refine bfsAux_nodup _ _ _ (by simp) ?_
  intro x hx
  rcases hx with h | h
  · simp only [List.mem_singleton] at h
    subst h
    simp
  · simp at h

theorem parentsEntries_keys_sublist (p : Plan) :
    ((parentsEntries p).map Prod.fst).Sublist (p.bfs_iterator.map PlanNode.id) := by
  rw [parentsEntries]
  generalize p.bfs_iterator = l
  induction l with
  | nil => simp
  | cons nd rest ih =>
    rw [List.filterMap_cons, List.map_cons]
    cases h : nd.inputs.toList with
    | nil => exact ih.cons nd.id
    | cons i is => simpa using ih.cons₂ nd.id

theorem parentsEntries_keys_nodup (p : Plan) :
    ((parentsEntries p).map Prod.fst).Nodup :=
  (bfs_ids_nodup p).sublist (parentsEntries_keys_sublist p)

/-- The association produced by `buildNodes` starting from slot `k`. -/
def buildAssoc : List PlanNode → Nat → List (Nat × Nat)
  | [], _ => []
  | nd :: rest, k => (nd.id, k) :: buildAssoc rest (k + 1)

theorem free_setNodeId (g : PlanGraph) (i : Nat) : (setNodeId g i).free = g.free := rfl

theorem nextId_setNodeId (g : PlanGraph) (i : Nat) : (setNodeId g i).nextId = g.nextId := rfl

theorem buildNodes_spec : ∀ (l : List PlanNode) (g : PlanGraph) (m : List (Nat × Nat)),
    g.free = [] →
    (buildNodes l g m).2 = (buildAssoc l g.nextId).reverse ++ m ∧
    (buildNodes l g m).1.free = [] ∧
    (buildNodes l g m).1.nextId = g.nextId + l.length := by
  intro l
  induction l with
  | nil =>
    intro g m hfree
    exact ⟨by simp [buildNodes, buildAssoc], hfree, rfl⟩
  | cons nd rest ih =>
    intro g m hfree
    rw [buildNodes]
    have han : addNode g (hepNodeOfPlanNode nd) =
        (g.nextId, { g with nodes := insertSorted g.nextId (hepNodeOfPlanNode nd) g.nodes,
                            nextId := g.nextId + 1 }) := by
      rw [addNode, hfree]
    rw [han]
    simp only
    have hfree' : (setNodeId
        { g with nodes := insertSorted g.nextId (hepNodeOfPlanNode nd) g.nodes,
                 nextId := g.nextId + 1 } g.nextId).free = [] := by
      rw [free_setNodeId]
      exact hfree
    obtain ⟨hm, hf, hn⟩ := ih _ ((nd.id, g.nextId) :: m) hfree'
    rw [nextId_setNodeId] at hm hn
    simp only at hm hn
    refine ⟨?_, hf, ?_⟩
    · rw [hm, buildAssoc, List.reverse_cons, List.append_assoc]
      rfl
    · rw [hn, List.length_cons]
      omega

theorem buildAssoc_keys : ∀ (l : List PlanNode) (k : Nat),
    (buildAssoc l k).map Prod.fst = l.map PlanNode.id := by
  intro l
  induction l with
  | nil => intro k; rfl
  | cons nd rest ih => intro k; simp [buildAssoc, ih]

theorem buildAssoc_val_lb : ∀ (l : List PlanNode) (k a v : Nat),
    (a, v) ∈ buildAssoc l k → k ≤ v := by
  intro l
  induction l with
  | nil => intro k a v h; simp [buildAssoc] at h
  | cons nd rest ih =>
    intro k a v h
    rcases List.mem_cons.1 h with h1 | h1
    · rw [Prod.mk.injEq] at h1
      omega
    · have := ih (k + 1) a v h1
      omega

theorem buildAssoc_val_inj : ∀ (l : List PlanNode) (k a b v : Nat),
    (a, v) ∈ buildAssoc l k → (b, v) ∈ buildAssoc l k → a = b := by
  intro l
  induction l with
  | nil => intro k a b v h; simp [buildAssoc] at h
  | cons nd rest ih =>
    intro k a b v ha hb
    rcases List.mem_cons.1 ha with h1 | h1 <;> rcases List.mem_cons.1 hb with h2 | h2
    · rw [Prod.mk.injEq] at h1 h2
      rw [h1.1, h2.1]
    · rw [Prod.mk.injEq] at h1
      have := buildAssoc_val_lb rest (k + 1) b v h2
      omega
    · rw [Prod.mk.injEq] at h2
      have := buildAssoc_val_lb rest (k + 1) a v h1
      omega
    · exact ih (k + 1) a b v h1 h2

theorem lookup_isSome_of_key {α : Type} : ∀ (l : List (Nat × α)) (k : Nat),
    k ∈ l.map Prod.fst → ∃ v, l.lookup k = some v := by
  intro l
  induction l with
  | nil => intro k h; simp at h
  | cons kv t ih =>
    intro k h
    cases kv with
    | mk k' v' =>
      rw [List.lookup]
      by_cases hk : k = k'
      · exact ⟨v', by simp [hk]⟩
      · have hbeq : (k == k') = false := beq_eq_false_iff_ne.2 hk
        simp only [hbeq]
        refine ih k ?_
        have h' : k = k' ∨ ∃ x, (k, x) ∈ t := by simpa using h
        rcases h' with h1 | ⟨x, hx⟩
        · exact absurd h1 hk
        · exact List.mem_map.2 ⟨(k, x), hx, rfl⟩

theorem nodup_keys_eq {β : Type} : ∀ (l : List (Nat × β)),
    (l.map Prod.fst).Nodup → ∀ a ∈ l, ∀ b ∈ l, a.1 = b.1 → a = b := by
  intro l
  induction l with
  | nil => intro _ a ha; simp at ha
  | cons x t ih =>
    intro hnodup a ha b hb hab
    rw [List.map_cons, List.nodup_cons] at hnodup
    rcases List.mem_cons.1 ha with h1 | h1 <;> rcases List.mem_cons.1 hb with h2 | h2
    · rw [h1, h2]
    · exfalso
      apply hnodup.1
      have hx : x.1 = b.1 := by rw [← h1]; exact hab
      rw [hx]
      exact List.mem_map.2 ⟨b, h2, rfl⟩
    · exfalso
      apply hnodup.1
      have hx : x.1 = a.1 := by rw [← h2]; exact hab.symm
      rw [hx]
      exact List.mem_map.2 ⟨a, h1, rfl⟩
    · exact ih hnodup.2 a h1 b h2 hab

theorem add_edge_comm (g : PlanGraph) (a1 b1 a2 b2 : Nat) (h : a1 ≠ a2) :
    add_edge (add_edge g a1 b1) a2 b2 = add_edge (add_edge g a2 b2) a1 b1 := by
  show updNode (updNode g a1 _) a2 _ = updNode (updNode g a2 _) a1 _
  unfold updNode
  refine congrArg (fun nds => PlanGraph.mk nds g.root g.free g.nextId) ?_
  rw [List.map_map, List.map_map]
  refine List.map_congr_left ?_
  intro kn _
  by_cases h1 : kn.1 = a1 <;> by_cases h2 : kn.1 = a2
  · exact absurd (h1.symm.trans h2) h
  · simp [Function.comp, h1, h2, h, Ne.symm h]
  · simp [Function.comp, h1, h2, h, Ne.symm h]
  · simp [Function.comp, h1, h2, h, Ne.symm h]

theorem foldl_add_edge_swap (s1 s2 : Nat) (h : s1 ≠ s2) :
    ∀ (ts : List Nat) (g : PlanGraph) (t : Nat),
      ts.foldl (fun g c => add_edge g s2 c) (add_edge g s1 t) =
      add_edge (ts.foldl (fun g c => add_edge g s2 c) g) s1 t := by
  intro ts
  induction ts with
  | nil => intro g t; rfl
  | cons c cs ih =>
    intro g t
    rw [List.foldl_cons, List.foldl_cons, add_edge_comm g s1 t s2 c h, ih]

theorem foldl_add_edge_comm (s1 s2 : Nat) (h : s1 ≠ s2) :
    ∀ (L1 L2 : List Nat) (g : PlanGraph),
      L2.foldl (fun g c => add_edge g s2 c) (L1.foldl (fun g c => add_edge g s1 c) g) =
      L1.foldl (fun g c => add_edge g s1 c) (L2.foldl (fun g c => add_edge g s2 c) g) := by
  intro L1
  induction L1 with
  | nil => intro L2 g; rfl
  | cons i is ih =>
    intro L2 g
    rw [List.foldl_cons, List.foldl_cons, ih, foldl_add_edge_swap s1 s2 h]

/-- C3: the heuristic pass is deterministic.  Whatever order the
`parents` map is iterated in while building the plan graph, the resulting
graph is identical, hence the node enumeration produced by `nodes_iter`
and the plan returned by `find_best_plan` are identical for any two runs
on the same plan, rule list, match order and iteration cap. -/
theorem C3_deterministic (p : Plan) (mo : MatchOrder) (n : Nat) (rules : List Rule)
    (entries1 entries2 : List (Nat × List Nat))
    (h1 : entries1.Perm (parentsEntries p)) (h2 : entries2.Perm (parentsEntries p)) :
    nodes_iter (planGraphOfPlan p entries1) mo = nodes_iter (planGraphOfPlan p entries2) mo ∧
    find_best_plan mo n rules (planGraphOfPlan p entries1) =
      find_best_plan mo n rules (planGraphOfPlan p entries2) := by
  suffices hg : planGraphOfPlan p entries1 = planGraphOfPlan p entries2 by
    rw [hg]
    exact ⟨rfl, rfl⟩
  suffices he :
      addParentEdges
        (buildNodes p.bfs_iterator { nodes := [], root := 0, free := [], nextId := 0 } []).1
        (buildNodes p.bfs_iterator { nodes := [], root := 0, free := [], nextId := 0 } []).2
        entries1 =
      addParentEdges
        (buildNodes p.bfs_iterator { nodes := [], root := 0, free := [], nextId := 0 } []).1
        (buildNodes p.bfs_iterator { nodes := [], root := 0, free := [], nextId := 0 } []).2
        entries2 by
    unfold planGraphOfPlan
    simp only [he]
  have hspec := buildNodes_spec p.bfs_iterator
    { nodes := [], root := 0, free := [], nextId := 0 } [] rfl
  set m := (buildNodes p.bfs_iterator
    { nodes := [], root := 0, free := [], nextId := 0 } []).2 with hm
  have hmval : m = (buildAssoc p.bfs_iterator 0).reverse ++ [] := hspec.1
  -- injectivity of the id map on the BFS ids
  have hinj : ∀ k1 k2, k1 ∈ p.bfs_iterator.map PlanNode.id →
      k2 ∈ p.bfs_iterator.map PlanNode.id → k1 ≠ k2 →
      mapLookup m k1 ≠ mapLookup m k2 := by
    intro k1 k2 hk1 hk2 hne
    have hkeys : m.map Prod.fst = ((buildAssoc p.bfs_iterator 0).map Prod.fst).reverse := by
      rw [hmval]
      simp [List.map_reverse]
    have hin1 : k1 ∈ m.map Prod.fst := by
      rw [hkeys, List.mem_reverse, buildAssoc_keys]
      exact hk1
    have hin2 : k2 ∈ m.map Prod.fst := by
      rw [hkeys, List.mem_reverse, buildAssoc_keys]
      exact hk2
    rcases lookup_isSome_of_key m k1 hin1 with ⟨v1, hv1⟩
    rcases lookup_isSome_of_key m k2 hin2 with ⟨v2, hv2⟩
    intro hcontra
    rw [mapLookup, mapLookup, hv1, hv2] at hcontra
    simp only [Option.getD_some] at hcontra
    subst hcontra
    have hmem1 : (k1, v1) ∈ buildAssoc p.bfs_iterator 0 := by
      have := lookup_mem m k1 v1 hv1
      rw [hmval] at this
      simpa using this
    have hmem2 : (k2, v1) ∈ buildAssoc p.bfs_iterator 0 := by
      have := lookup_mem m k2 v1 hv2
      rw [hmval] at this
      simpa using this
    exact hne (buildAssoc_val_inj p.bfs_iterator 0 k1 k2 v1 hmem1 hmem2)
  -- entries keys live among the BFS ids
  have hkeys_in : ∀ e ∈ parentsEntries p, e.1 ∈ p.bfs_iterator.map PlanNode.id := by
    intro e he
    have : e.1 ∈ (parentsEntries p).map Prod.fst := List.mem_map.2 ⟨e, he, rfl⟩
    exact (parentsEntries_keys_sublist p).mem this
  -- permutation invariance of the edge fold
  unfold addParentEdges
  refine foldl_perm_of_comm (h1.trans h2.symm) ?_ _
  intro e1 he1 e2 he2 g
  by_cases heq : e1 = e2
  · rw [heq]
  · have he1' : e1 ∈ parentsEntries p := h1.mem_iff.1 he1
    have he2' : e2 ∈ parentsEntries p := h1.mem_iff.1 he2
    have hkeyne : e1.1 ≠ e2.1 := by
      intro hcontra
      exact heq (nodup_keys_eq (parentsEntries p) (parentsEntries_keys_nodup p)
        e1 he1' e2 he2' hcontra)
    have hsrc : mapLookup m e1.1 ≠ mapLookup m e2.1 :=
      hinj e1.1 e2.1 (hkeys_in e1 he1') (hkeys_in e2 he2') hkeyne
    show (e2.2.foldl (fun g iid => add_edge g (mapLookup m e2.1) (mapLookup m iid))
        (e1.2.foldl (fun g iid => add_edge g (mapLookup m e1.1) (mapLookup m iid)) g)) =
      (e1.2.foldl (fun g iid => add_edge g (mapLookup m e1.1) (mapLookup m iid))
        (e2.2.foldl (fun g iid => add_edge g (mapLookup m e2.1) (mapLookup m iid)) g))
    rw [← List.foldl_map (mapLookup m) (fun g c => add_edge g (mapLookup m e1.1) c) e1.2,
        ← List.foldl_map (mapLookup m) (fun g c => add_edge g (mapLookup m e2.1) c) e2.2,
        ← List.foldl_map (mapLookup m) (fun g c => add_edge g (mapLookup m e1.1) c) e1.2,
        ← List.foldl_map (mapLookup m) (fun g c => add_edge g (mapLookup m e2.1) c) e2.2]
    exact foldl_add_edge_comm (mapLookup m e1.1) (mapLookup m e2.1) hsrc
      (e1.2.map (mapLookup m)) (e2.2.map (mapLookup m)) g

def c3Scan : PlanNode := .mk 2 (.Logical (.LogicalScan ⟨none, "t"⟩)) .nil none none none

def c3Mid : PlanNode := .mk 1 (.Logical (.LogicalLimit ⟨5⟩)) (.cons c3Scan .nil) none none none

def c3Plan : Plan := ⟨.mk 0 (.Logical (.LogicalLimit ⟨7⟩)) (.cons c3Mid .nil) none none none⟩

theorem C3_deterministic_witness :
    nodes_iter (planGraphOfPlan c3Plan [(0, [1]), (1, [2])]) .TopDown =
      nodes_iter (planGraphOfPlan c3Plan [(1, [2]), (0, [1])]) .TopDown ∧
    find_best_plan .TopDown 2 [] (planGraphOfPlan c3Plan [(0, [1]), (1, [2])]) =
      find_best_plan .TopDown 2 [] (planGraphOfPlan c3Plan [(1, [2]), (0, [1])]) :=
  C3_deterministic c3Plan .TopDown 2 [] [(0, [1]), (1, [2])] [(1, [2]), (0, [1])]
    (by
      have h : parentsEntries c3Plan = [(0, [1]), (1, [2])] := by
        simp [parentsEntries, Plan.bfs_iterator, bfsAux, enqueueInputs, c3Plan, c3Mid,
          c3Scan, PlanNode.id, PlanNode.inputs, PlanNodeList.toList]
      rw [h])
    (by
      have h : parentsEntries c3Plan = [(0, [1]), (1, [2])] := by
        simp [parentsEntries, Plan.bfs_iterator, bfsAux, enqueueInputs, c3Plan, c3Mid,
          c3Scan, PlanNode.id, PlanNode.inputs, PlanNodeList.toList]
      rw [h]
      exact List.Perm.swap _ _ _)
